import Mathlib

/-!
# Enumeration strategies (`Code/GraphMol/ChemReactions/Enumerate`)

A shallow embedding of `EnumerationStrategyBase.h` and `RandomSample.h`.

* `size_t` is a natural number below `2 ^ 64`; arithmetic that can wrap is written with an
  explicit `% SIZE_MOD`.
* `RGROUPS` (`std::vector` of unsigned counts) is `List Nat`.
* `BBS` (`std::vector<MOL_SPTR_VECT>`) is `List (List M)` for a type `M` of molecules that the
  strategies never inspect; the `ChemicalReaction` argument is a value of a type `X`.
* The Boost random library (`boost::minstd_rand`, `boost::random::uniform_int_distribution<>`)
  is not part of the repository. It enters as a record `RandomLib G` of operations on a
  generator state `G`; the library's documented guarantees are stated as separate predicates
  (`RandomLib.InRange`, `RandomLib.StreamRoundTrip`) and appear as hypotheses where needed.
* Indexing a vector out of bounds is undefined behaviour and is modelled by `none`.
-/

namespace RDKit

/-! ## Machine integers -/

/-- The number of values of `size_t`. -/
def SIZE_MOD : Nat := 2 ^ 64

/-- The value `std::numeric_limits<size_t>::max()`. -/
def SIZE_MAX : Nat := SIZE_MOD - 1

/-- Conversion of a signed value to `size_t` (reduction modulo `2 ^ 64`). -/
def toSizeT (v : Int) : Nat := (v % (SIZE_MOD : Int)).toNat

/-- Conversion of an unsigned value to `int` (32 bits, two's complement). -/
def toInt32 (n : Nat) : Int :=
  if n % 2 ^ 32 < 2 ^ 31 then ((n % 2 ^ 32 : Nat) : Int) else ((n % 2 ^ 32 : Nat) : Int) - 2 ^ 32

/-- The `size_t` subtraction `n - 1`, which wraps at zero. -/
def decSizeT (n : Nat) : Nat := (n + SIZE_MOD - 1) % SIZE_MOD

/-! ## `EnumerationStrategyBase.h` -/

/-- A vector of per-site counts or indices. -/
abbrev RGROUPS := List Nat

/-- The loop of `getSizesFromBBs`: `sizes.push_back(bbs[i].size())` for each `i` in order. -/
def getSizesFromBBs.loop {T : Type} : List (List T) → List Nat → List Nat
  | [], sizes => sizes
  | b :: rest, sizes => getSizesFromBBs.loop rest (sizes ++ [b.length])

/-- The function `getSizesFromBBs`: the number of elements per input vector. -/
def getSizesFromBBs {T : Type} (bbs : List (List T)) : List Nat :=
  getSizesFromBBs.loop bbs []

/-- The constant `EnumerationStrategyBase::EnumerationOverflow`, `static_cast<size_t>(-1)`. -/
def EnumerationOverflow : Nat := toSizeT (-1)

/-- Modelled from the spec: the body of `computeNumProducts` is missing (only its declaration
and the sentinel are in the header). "Must multiply all sizes together using an intermediate
representation with unbounded range": the exact running product, starting from 1. -/
def exactProduct (sizes : RGROUPS) : Nat :=
  sizes.foldl (fun myint s => myint * s) 1

/-- Modelled from the spec: the body of `computeNumProducts` is missing. "After computing the
exact product, compare it against the maximum value representable by the native unsigned count
type; if it exceeds that maximum, return Overflow; otherwise return the exact value narrowed to
the native width." The result type is the declared `size_t`, the Overflow value is the header's
`EnumerationOverflow`. -/
def computeNumProducts (sizes : RGROUPS) : Nat :=
  if SIZE_MAX < exactProduct sizes then EnumerationOverflow
  else exactProduct sizes % SIZE_MOD

/-- The data members of `EnumerationStrategyBase`. -/
structure EnumerationStrategyBase where
  m_permutation : RGROUPS
  m_permutationSizes : RGROUPS
  m_numPermutations : Nat
deriving DecidableEq, Repr

/-- The call `v.resize(n)` on a vector of counts: keeps the first `n` elements and
value-initialises the new ones. -/
def resize (v : List Nat) (n : Nat) : List Nat :=
  v.take n ++ List.replicate (n - v.length) 0

/-- The call `std::fill(v.begin(), v.end(), x)`. -/
def fill (v : List Nat) (x : Nat) : List Nat := v.map (fun _ => x)

/-- The part of `EnumerationStrategyBase::initialize` that precedes the call of the
`initializeStrategy` hook. -/
def EnumerationStrategyBase.initialize {M : Type} (b : EnumerationStrategyBase)
    (building_blocks : List (List M)) : EnumerationStrategyBase :=
  let sizes := getSizesFromBBs building_blocks
  let perm := resize b.m_permutation sizes.length
  let num := computeNumProducts sizes
  { m_permutation := fill perm 0, m_permutationSizes := sizes, m_numPermutations := num }

/-- The protected helper `EnumerationStrategyBase::internalInitialize`. -/
def EnumerationStrategyBase.internalInitialize (b : EnumerationStrategyBase)
    (rgroups : RGROUPS) : EnumerationStrategyBase :=
  let perm := resize b.m_permutation rgroups.length
  { m_permutation := fill perm 0, m_permutationSizes := rgroups,
    m_numPermutations := computeNumProducts rgroups }

/-! ## The random library -/

/-- A `boost::random::uniform_int_distribution<>`: its two `int` parameters. -/
structure Dist where
  min : Int
  max : Int
deriving DecidableEq, Repr

/-- The operations of the random library used by `RandomSample.h`, over a generator state `G`:
the default-constructed `boost::minstd_rand`, one draw `dist(rng)` from a distribution with
parameters `a b` (the value drawn and the generator afterwards), the stream output
`os << rng`, and the stream input `is >> rng` (`none` when the text is not a generator
state, in which case the stream fails and the generator is left as it was). -/
structure RandomLib (G : Type) where
  init : G
  draw : Int → Int → G → Int × G
  write : G → String
  read : String → Option G

/-- The library's guarantee for a distribution built with `a ≤ b` (its precondition): every
value drawn lies in the closed range. -/
def RandomLib.InRange {G : Type} (R : RandomLib G) : Prop :=
  ∀ (a b : Int) (g : G), a ≤ b → a ≤ (R.draw a b g).1 ∧ (R.draw a b g).1 ≤ b

/-- The library's guarantee that a generator written to a stream is read back unchanged. -/
def RandomLib.StreamRoundTrip {G : Type} (R : RandomLib G) : Prop :=
  ∀ g : G, R.read (R.write g) = some g

/-! ## `RandomSample.h` -/

/-- The data members of `RandomSampleStrategy`. -/
structure RandomSampleStrategy (G : Type) extends EnumerationStrategyBase where
  m_numPermutationsProcessed : Nat
  m_rng : G
  m_distributions : List Dist

/-- The loop that appends one `uniform_int_distribution<>(0, sizes[i] - 1)` per entry, in
order. The subtraction is done in `size_t` and the result converted to `int`. -/
def pushDistributions : List Nat → List Dist → List Dist
  | [], ds => ds
  | n :: rest, ds => pushDistributions rest (ds ++ [{ min := 0, max := toInt32 (decSizeT n) }])

/-- The default constructor `RandomSampleStrategy()`. -/
def RandomSampleStrategy.ctor {G : Type} (R : RandomLib G) : RandomSampleStrategy G :=
  let base : EnumerationStrategyBase :=
    { m_permutation := [], m_permutationSizes := [], m_numPermutations := 0 }
  { toEnumerationStrategyBase := base
    m_numPermutationsProcessed := 0
    m_rng := R.init
    m_distributions := pushDistributions base.m_permutation [] }

/-- The hook `RandomSampleStrategy::initializeStrategy`. -/
def RandomSampleStrategy.initializeStrategy {G X M : Type} (s : RandomSampleStrategy G)
    (_reaction : X) (_building_blocks : List (List M)) : RandomSampleStrategy G :=
  { s with
    m_distributions := pushDistributions s.m_permutationSizes []
    m_numPermutationsProcessed := 0 }

/-- The method `initialize(reaction, building_blocks)` on a `RandomSampleStrategy`. -/
def RandomSampleStrategy.initialize {G X M : Type} (s : RandomSampleStrategy G)
    (reaction : X) (building_blocks : List (List M)) : RandomSampleStrategy G :=
  RandomSampleStrategy.initializeStrategy
    { s with toEnumerationStrategyBase :=
        s.toEnumerationStrategyBase.initialize building_blocks }
    reaction building_blocks

/-- The loop of `next`: `k` iterations remain, `i` is the loop index;
`m_permutation[i] = m_distributions[i](m_rng)`. -/
def RandomSampleStrategy.next.loop {G : Type} (R : RandomLib G) (dists : List Dist) :
    Nat → Nat → RGROUPS → G → Option (RGROUPS × G)
  | 0, _, perm, g => some (perm, g)
  | k + 1, i, perm, g =>
    match dists[i]? with
    | none => none
    | some d =>
      let r := R.draw d.min d.max g
      RandomSampleStrategy.next.loop R dists k (i + 1) (perm.set i (toSizeT r.1)) r.2

/-- The method `next()`: the tuple returned and the state afterwards. -/
def RandomSampleStrategy.next {G : Type} (R : RandomLib G) (s : RandomSampleStrategy G) :
    Option (RGROUPS × RandomSampleStrategy G) :=
  match RandomSampleStrategy.next.loop R s.m_distributions s.m_permutation.length 0
      s.m_permutation s.m_rng with
  | none => none
  | some (perm, g) =>
    some (perm,
      { s with
        m_permutation := perm
        m_rng := g
        m_numPermutationsProcessed := (s.m_numPermutationsProcessed + 1) % SIZE_MOD })

/-- The method `getPermutationIdx()`. -/
def RandomSampleStrategy.getPermutationIdx {G : Type} (s : RandomSampleStrategy G) : Nat :=
  s.m_numPermutationsProcessed

/-- The conversion `operator bool()`. -/
def RandomSampleStrategy.hasNext {G : Type} (_s : RandomSampleStrategy G) : Bool := true

/-- The method `getPosition()`. -/
def RandomSampleStrategy.getPosition {G : Type} (s : RandomSampleStrategy G) : RGROUPS :=
  s.m_permutation

/-- The method `getNumPermutations()`. -/
def RandomSampleStrategy.getNumPermutations {G : Type} (s : RandomSampleStrategy G) : Nat :=
  s.m_numPermutations

/-- The method `skip(skipCount)`: the value returned and the state afterwards. -/
def RandomSampleStrategy.skip {G : Type} (R : RandomLib G) :
    Nat → RandomSampleStrategy G → Option (Bool × RandomSampleStrategy G)
  | 0, s => some (true, s)
  | n + 1, s =>
    match RandomSampleStrategy.next R s with
    | none => none
    | some (_, s') => RandomSampleStrategy.skip R n s'

/-- What `save` writes to the archive, in order: the base object, the processed counter and
the generator as text. -/
structure Archive where
  base : EnumerationStrategyBase
  m_numPermutationsProcessed : Nat
  s : String
deriving DecidableEq, Repr

/-- The method `save`. -/
def RandomSampleStrategy.save {G : Type} (R : RandomLib G) (s : RandomSampleStrategy G) :
    Archive :=
  { base := s.toEnumerationStrategyBase
    m_numPermutationsProcessed := s.m_numPermutationsProcessed
    s := R.write s.m_rng }

/-- The method `load`, applied to the instance `t`. -/
def RandomSampleStrategy.load {G : Type} (R : RandomLib G) (t : RandomSampleStrategy G)
    (ar : Archive) : RandomSampleStrategy G :=
  { toEnumerationStrategyBase := ar.base
    m_numPermutationsProcessed := ar.m_numPermutationsProcessed
    m_rng := match R.read ar.s with
      | some g => g
      | none => t.m_rng
    m_distributions := pushDistributions ar.base.m_permutationSizes [] }

/-- The method `Clone()`: the copy constructor applied to `*this`. -/
def RandomSampleStrategy.Clone {G : Type} (s : RandomSampleStrategy G) :
    RandomSampleStrategy G :=
  { toEnumerationStrategyBase :=
      { m_permutation := s.m_permutation, m_permutationSizes := s.m_permutationSizes,
        m_numPermutations := s.m_numPermutations }
    m_numPermutationsProcessed := s.m_numPermutationsProcessed
    m_rng := s.m_rng
    m_distributions := s.m_distributions }

/-! ## Drivers and reachable states -/

/-- One call of `next()` on a state that may already be undefined, keeping only the state. -/
def RandomSampleStrategy.callNext {G : Type} (R : RandomLib G) :
    Option (RandomSampleStrategy G) → Option (RandomSampleStrategy G)
  | none => none
  | some s => (RandomSampleStrategy.next R s).map Prod.snd

/-- The state after `n` sequential calls of `next()`. -/
def RandomSampleStrategy.nextTimes {G : Type} (R : RandomLib G) (n : Nat)
    (s : RandomSampleStrategy G) : Option (RandomSampleStrategy G) :=
  (RandomSampleStrategy.callNext R)^[n] (some s)

/-- The tuples returned by `n` sequential calls of `next()`, in order. -/
def RandomSampleStrategy.draws {G : Type} (R : RandomLib G) :
    Nat → RandomSampleStrategy G → Option (List RGROUPS)
  | 0, _ => some []
  | n + 1, s =>
    match RandomSampleStrategy.next R s with
    | none => none
    | some (v, s') => (RandomSampleStrategy.draws R n s').map (fun vs => v :: vs)

/-- The states a `RandomSampleStrategy` object can be in: default construction followed by any
sequence of `initialize`, `next`, `skip`, `Clone` and loading a saved reachable state. -/
inductive Reachable {G : Type} (R : RandomLib G) : RandomSampleStrategy G → Prop
  | ctor : Reachable R (RandomSampleStrategy.ctor R)
  | init {X M : Type} (s : RandomSampleStrategy G) (reaction : X)
      (building_blocks : List (List M)) :
      Reachable R s → Reachable R ( s.initialize reaction building_blocks)
  | next (s : RandomSampleStrategy G) (v : RGROUPS) (s' : RandomSampleStrategy G) :
      Reachable R s → RandomSampleStrategy.next R s = some (v, s') → Reachable R s'
  | skip (s : RandomSampleStrategy G) (n : Nat) (b : Bool) (s' : RandomSampleStrategy G) :
      Reachable R s → RandomSampleStrategy.skip R n s = some (b, s') → Reachable R s'
  | Clone (s : RandomSampleStrategy G) : Reachable R s → Reachable R s.Clone
  | load (s t : RandomSampleStrategy G) :
      Reachable R s → Reachable R t →
      Reachable R (RandomSampleStrategy.load R t (RandomSampleStrategy.save R s))

/-- The strategy objects alive in a program, by address. -/
abbrev Store (G : Type) := List (RandomSampleStrategy G)

/-- The call `p->Clone()` in a store: a new object is allocated and its address returned. -/
def Store.Clone {G : Type} (h : Store G) (p : Nat) : Option (Nat × Store G) :=
  match h[p]? with
  | none => none
  | some s => some (h.length, h ++ [s.Clone])

/-- The call `p->next()` in a store. -/
def Store.next {G : Type} (R : RandomLib G) (h : Store G) (p : Nat) :
    Option (RGROUPS × Store G) :=
  match h[p]? with
  | none => none
  | some s =>
    match RandomSampleStrategy.next R s with
    | none => none
    | some (v, s') => some (v, h.set p s')

/-- The store after `n` calls `p->next()`. -/
def Store.nextTimes {G : Type} (R : RandomLib G) (p : Nat) : Nat → Store G → Option (Store G)
  | 0, h => some h
  | n + 1, h =>
    match Store.next R h p with
    | none => none
    | some (_, h') => Store.nextTimes R p n h'

/-- One call made by a driver on a strategy: `next()` or `skip(k)`. -/
inductive Call where
  | next : Call
  | skip (k : Nat) : Call
deriving DecidableEq, Repr

/-- The number of steps a call stands for: 1 for `next()`, `k` for `skip(k)`. -/
def Call.steps : Call → Nat
  | Call.next => 1
  | Call.skip k => k

/-- The state after a sequence of `next()` and `skip(k)` calls made in order. -/
def runCalls {G : Type} (R : RandomLib G) :
    List Call → RandomSampleStrategy G → Option (RandomSampleStrategy G)
  | [], s => some s
  | Call.next :: cs, s =>
    match RandomSampleStrategy.next R s with
    | none => none
    | some (_, s') => runCalls R cs s'
  | Call.skip k :: cs, s =>
    match RandomSampleStrategy.skip R k s with
    | none => none
    | some (_, s') => runCalls R cs s'

/-- The description of `next()` in words, as a function of the distributions and the
generator alone: "for each dimension i in order, draws one value from its distribution using
the shared generator"; the tuple drawn and the generator afterwards. -/
def drawInOrder {G : Type} (R : RandomLib G) : List Dist → G → RGROUPS × G
  | [], g => ([], g)
  | d :: ds, g =>
    let r := R.draw d.min d.max g
    let rest := drawInOrder R ds r.2
    (toSizeT r.1 :: rest.1, rest.2)

/-- The conditions under which the positions are known to stay within the sizes: the
distributions are the ones built from the sizes, the two vectors have the same length, every
size is between 1 and `2 ^ 31`, and every position is below its size. -/
def InBounds {G : Type} (s : RandomSampleStrategy G) : Prop :=
  s.m_distributions = pushDistributions s.m_permutationSizes [] ∧
  s.m_permutation.length = s.m_permutationSizes.length ∧
  (∀ n ∈ s.m_permutationSizes, 0 < n ∧ n ≤ 2147483648) ∧
  ∀ j x n : Nat, s.m_permutation[j]? = some x → s.m_permutationSizes[j]? = some n → x < n

/-! ## A sample library instance

The definitions above can be run with any instance of the library interface. The one below
is a multiplicative congruential generator with the constants of `minstd_rand`; it draws by
reduction modulo the width of the range and writes its state in unary. It is a stand-in for
evaluation: no theorem about the strategies depends on it. -/

/-- A generator and distribution with which the strategies can be evaluated. -/
def sampleLib : RandomLib Nat where
  init := 1
  draw a b g :=
    let x := (48271 * g) % 2147483647
    (if a ≤ b then a + ((x : Int) % (b - a + 1)) else a, x)
  write g := String.mk (List.replicate g '1')
  read t := if t.data.all (fun c => c == '1') then some t.length else none

/-- A default-constructed strategy over the sample library, initialized with three sites of
4, 1 and 7 building blocks. -/
def sampleStart : RandomSampleStrategy Nat :=
  RandomSampleStrategy.initialize (RandomSampleStrategy.ctor sampleLib) ()
    [[1, 2, 3, 4], [5], [1, 2, 3, 4, 5, 6, 7]]

/-- The state of `sampleStart` after one call of `next()`, which returns `[3, 0, 5]`. -/
def sampleAfter : RandomSampleStrategy Nat :=
  { m_permutation := [3, 0, 5]
    m_permutationSizes := [4, 1, 7]
    m_numPermutations := 28
    m_numPermutationsProcessed := 1
    m_rng := 1291394886
    m_distributions := [{ min := 0, max := 3 }, { min := 0, max := 0 }, { min := 0, max := 6 }] }

/-- An archive whose persisted position 5 is not below the persisted size 3. -/
def sampleArchiveBadPosition : Archive :=
  { base := { m_permutation := [5], m_permutationSizes := [3], m_numPermutations := 3 }
    m_numPermutationsProcessed := 0
    s := "1" }

/-- An archive with the sizes `[4, 7]`, the generator 1 and one position. -/
def sampleArchiveOnePosition : Archive :=
  { base := { m_permutation := [0], m_permutationSizes := [4, 7], m_numPermutations := 28 }
    m_numPermutationsProcessed := 0
    s := "1" }

/-- An archive with the sizes `[4, 7]`, the generator 1 and two positions. -/
def sampleArchiveTwoPositions : Archive :=
  { base := { m_permutation := [0, 0], m_permutationSizes := [4, 7], m_numPermutations := 28 }
    m_numPermutationsProcessed := 0
    s := "1" }

/-- The state `sampleAfter` with another position vector of the same length and another
processed counter; no sequence of calls leads to it. -/
def sampleOtherPosition : RandomSampleStrategy Nat :=
  { sampleAfter with m_permutation := [9, 9, 9], m_numPermutationsProcessed := 77 }

end RDKit

/-!
# CXSMILES extensions (`Code/GraphMol/SmilesParse/CXSmilesOps.cpp`)

* An iterator is the list of the characters from it to `last`; `++first` drops the head and
  `first >= last` is the empty list.
* The molecule (`RDKit::RWMol`), `boost::lexical_cast<double>` and the query classes are not
  in this file of the repository: the molecule is a type `M` acted on through a record
  `MolOps M D` of the operations the parser calls, where `D` is the type of a coordinate.
  An operation that can throw returns an `Option`.
* Loops that are not a plain scan of the input take a number of allowed iterations (fuel);
  running out of it is the outcome `Run.fuel`.
-/

namespace SmilesParseOps

/-- An iterator into the text being parsed: the characters from it to `last`. -/
abbrev Iter := List Char

/-- The exceptions that come out of the libraries below the parser. -/
inductive LibExc where
  | bad_lexical_cast : LibExc
  | molecule : LibExc
deriving DecidableEq, Repr

/-- How a call of a parsing function ends: it returns, a library exception passes through
it, it reads `*first` with `first == last`, or the allowed iterations are used up. -/
inductive Run (α : Type) where
  | ret (a : α) : Run α
  | raise (e : LibExc) : Run α
  | undefined : Run α
  | fuel : Run α
deriving DecidableEq, Repr

/-- Sequencing of two steps: the second runs on what the first returns. -/
def Run.bind {α β : Type} : Run α → (α → Run β) → Run β
  | Run.ret a, f => f a
  | Run.raise e, _ => Run.raise e
  | Run.undefined, _ => Run.undefined
  | Run.fuel, _ => Run.fuel

/-- The query atoms that `processCXSmilesLabels` builds: `makeAtomNullQuery()`, an
`ATOM_OR_QUERY` over `makeAtomNumQuery(n)` children, a single `makeAtomNumQuery(n)`, each with
its negation flag, and a `QueryAtom(0)` whose query was never set. -/
inductive LabelQuery where
  | null : LabelQuery
  | atomOr (negated : Bool) (nums : List Nat) : LabelQuery
  | atomNum (negated : Bool) (num : Nat) : LabelQuery
  | unset : LabelQuery
deriving DecidableEq, Repr

/-- The operations on the molecule and the coordinate conversion that the parser calls:
`getNumAtoms()`; `getAtomWithIdx(i)->setProp("_atomLabel", t)`;
`getAtomWithIdx(i)->getPropIfPresent("_atomLabel", t)`; `addConformer(new Conformer(n))`;
`conf->setAtomPos(i, pt)` on the conformer added last; `lexical_cast<double>`; the coordinate
of a default `Point3D`; the begin and end atoms of `getBondWithIdx(b)`;
`setBondType(Bond::DATIVE)`; `setBeginAtomIdx(a)` with `setEndAtomIdx(e)`;
`getAtomWithIdx(i)->setNumRadicalElectrons(k)`; and `replaceAtom(i, query)` with a query atom
that has no implicit hydrogens. -/
structure MolOps (M D : Type) where
  getNumAtoms : M → Nat
  setAtomLabel : M → Nat → List Char → Option M
  getAtomLabel : M → Nat → Option (List Char)
  addConformer : M → M
  setAtomPos : M → Nat → D × D × D → M
  castDouble : List Char → Option D
  zero : D
  bondAtoms : M → Nat → Option (Nat × Nat)
  setBondDative : M → Nat → M
  setBondAtoms : M → Nat → Nat → Nat → M
  setNumRadicalElectrons : M → Nat → Nat → Option M
  replaceAtom : M → Nat → LabelQuery → M

/-- The test `c >= '0' && c <= '9'`. -/
def isDigit (c : Char) : Bool := decide ('0' ≤ c) && decide (c ≤ '9')

/-- The string `std::string(start, first)` for an iterator `first` reached from `start`. -/
def between (start first : Iter) : List Char := start.take (start.length - first.length)

/-- The loop of `read_text_to`: advance while the character is neither `sep` nor
`blockend`. -/
def read_text_to.loop (sep blockend : Char) : Iter → Iter
  | [] => []
  | c :: cs => if c ≠ sep ∧ c ≠ blockend then read_text_to.loop sep blockend cs else c :: cs

/-- The function `read_text_to`: the text returned and the iterator afterwards. -/
def read_text_to (first : Iter) (sep blockend : Char) : List Char × Iter :=
  let start := first
  let first1 := read_text_to.loop sep blockend first
  (between start first1, first1)

/-- Modelled library function `boost::lexical_cast<unsigned int>` on a string of decimal
digits, the only strings `read_int` passes to it: the number read digit by digit, or `none`
(`bad_lexical_cast`) when it does not fit 32 bits. -/
def lexical_cast_uint (num : List Char) : Option Nat :=
  let v := num.foldl (fun acc c => acc * 10 + (c.toNat - 48)) 0
  if v < 2 ^ 32 then some v else none

/-- The loop of `read_int`: append digits to `num` and advance. -/
def read_int.loop : List Char → Iter → List Char × Iter
  | num, [] => (num, [])
  | num, c :: cs => if isDigit c then read_int.loop (num ++ [c]) cs else (num, c :: cs)

/-- The function `read_int`: the value returned, the iterator and `res` afterwards. -/
def read_int (first : Iter) (res : Nat) : Run (Bool × Iter × Nat) :=
  let r := read_int.loop [] first
  if r.1 = [] then Run.ret (false, r.2, res)
  else
    match lexical_cast_uint r.1 with
    | none => Run.raise LibExc.bad_lexical_cast
    | some v => Run.ret (true, r.2, v)

/-- The function `read_int_pair`: the value returned, the iterator, `n1` and `n2`. -/
def read_int_pair (first : Iter) (n1 n2 : Nat) (sep : Char) : Run (Bool × Iter × Nat × Nat) :=
  (read_int first n1).bind fun r1 =>
    if r1.1 = false then Run.ret (false, r1.2.1, r1.2.2, n2)
    else
      match r1.2.1 with
      | [] => Run.ret (false, r1.2.1, r1.2.2, n2)
      | c :: cs =>
        if c ≠ sep then Run.ret (false, r1.2.1, r1.2.2, n2)
        else (read_int cs n2).bind fun r2 => Run.ret (r2.1, r2.2.1, r1.2.2, r2.2.2)

/-- The loop of `parse_atom_labels`; it ends with the iterator and the molecule. -/
def parse_atom_labels.loop {M D : Type} (ops : MolOps M D) :
    Nat → Iter → Nat → M → Run (Iter × M)
  | 0, _, _, _ => Run.fuel
  | n + 1, first, atIdx, mol =>
    match first with
    | [] => Run.ret (first, mol)
    | c :: _ =>
      if c = '$' then Run.ret (first, mol)
      else
        let r := read_text_to first ';' '$'
        match (if r.1 ≠ [] then ops.setAtomLabel mol atIdx r.1 else some mol) with
        | none => Run.raise LibExc.molecule
        | some mol1 =>
          let first2 :=
            match r.2 with
            | [] => r.2
            | c1 :: cs1 => if c1 ≠ '$' then cs1 else r.2
          parse_atom_labels.loop ops n first2 (atIdx + 1) mol1

/-- The function `parse_atom_labels`. -/
def parse_atom_labels {M D : Type} (ops : MolOps M D) (fuel : Nat) (first : Iter) (mol : M) :
    Run (Bool × Iter × M) :=
  match first with
  | [] => Run.ret (false, first, mol)
  | c :: cs =>
    if c ≠ '$' then Run.ret (false, first, mol)
    else
      (parse_atom_labels.loop ops fuel cs 0 mol).bind fun r =>
        match r.1 with
        | [] => Run.ret (false, r.1, r.2)
        | c1 :: cs1 => if c1 ≠ '$' then Run.ret (false, r.1, r.2) else Run.ret (true, cs1, r.2)

/-- One coordinate of a point in `parse_coords`: `tokens[i]` converted when it is there and
not empty, the default coordinate otherwise. -/
def parse_coords.coord {M D : Type} (ops : MolOps M D) (tokens : List (List Char)) (i : Nat) :
    Run D :=
  match tokens[i]? with
  | none => Run.ret ops.zero
  | some t =>
    if t = [] then Run.ret ops.zero
    else
      match ops.castDouble t with
      | none => Run.raise LibExc.bad_lexical_cast
      | some d => Run.ret d

/-- The point built in one iteration of `parse_coords` from the token `tkn`. -/
def parse_coords.point {M D : Type} (ops : MolOps M D) (tkn : List Char) : Run (D × D × D) :=
  if tkn ≠ [] then
    let tokens := tkn.splitOn ','
    (parse_coords.coord ops tokens 0).bind fun x =>
      (parse_coords.coord ops tokens 1).bind fun y =>
        (parse_coords.coord ops tokens 2).bind fun z => Run.ret (x, y, z)
  else Run.ret (ops.zero, ops.zero, ops.zero)

/-- The loop of `parse_coords`; it ends with the iterator and the molecule. -/
def parse_coords.loop {M D : Type} (ops : MolOps M D) :
    Nat → Iter → Nat → M → Run (Iter × M)
  | 0, _, _, _ => Run.fuel
  | n + 1, first, atIdx, mol =>
    match first with
    | [] => Run.ret (first, mol)
    | c :: _ =>
      if c = ')' then Run.ret (first, mol)
      else
        let r := read_text_to first ';' ')'
        (parse_coords.point ops r.1).bind fun pt =>
          let mol1 := ops.setAtomPos mol atIdx pt
          let first2 :=
            match r.2 with
            | [] => r.2
            | c1 :: cs1 => if c1 ≠ ')' then cs1 else r.2
          parse_coords.loop ops n first2 (atIdx + 1) mol1

/-- The function `parse_coords`. -/
def parse_coords {M D : Type} (ops : MolOps M D) (fuel : Nat) (first : Iter) (mol : M) :
    Run (Bool × Iter × M) :=
  match first with
  | [] => Run.ret (false, first, mol)
  | c :: cs =>
    if c ≠ '(' then Run.ret (false, first, mol)
    else
      (parse_coords.loop ops fuel cs 0 (ops.addConformer mol)).bind fun r =>
        match r.1 with
        | [] => Run.ret (false, r.1, r.2)
        | c1 :: cs1 => if c1 ≠ ')' then Run.ret (false, r.1, r.2) else Run.ret (true, cs1, r.2)

/-- The loop of `parse_coordinate_bonds`; the flag is `false` when the function returns
`false` from inside the loop. -/
def parse_coordinate_bonds.loop {M D : Type} (ops : MolOps M D) :
    Nat → Iter → M → Run (Bool × Iter × M)
  | 0, _, _ => Run.fuel
  | n + 1, first, mol =>
    match first with
    | [] => Run.ret (true, first, mol)
    | c :: _ =>
      if isDigit c = false then Run.ret (true, first, mol)
      else
        (read_int_pair first 0 0 '.').bind fun r =>
          if r.1 = false then Run.ret (false, r.2.1, mol)
          else
            let aidx := r.2.2.1
            let bidx := r.2.2.2
            match ops.bondAtoms mol bidx with
            | none => Run.raise LibExc.molecule
            | some (b, e) =>
              if b ≠ aidx ∧ e ≠ aidx then Run.ret (false, r.2.1, mol)
              else
                let mol1 := ops.setBondDative mol bidx
                let mol2 := if b ≠ aidx then ops.setBondAtoms mol1 bidx aidx b else mol1
                let first2 :=
                  match r.2.1 with
                  | [] => r.2.1
                  | c1 :: cs1 => if c1 = ',' then cs1 else r.2.1
                parse_coordinate_bonds.loop ops n first2 mol2

/-- The function `parse_coordinate_bonds`. -/
def parse_coordinate_bonds {M D : Type} (ops : MolOps M D) (fuel : Nat) (first : Iter)
    (mol : M) : Run (Bool × Iter × M) :=
  match first with
  | [] => Run.ret (false, first, mol)
  | c :: cs =>
    if c ≠ 'C' then Run.ret (false, first, mol)
    else
      match cs with
      | [] => Run.ret (false, cs, mol)
      | c1 :: cs1 =>
        if c1 ≠ ':' then Run.ret (false, cs, mol)
        else parse_coordinate_bonds.loop ops fuel cs1 mol

/-- The loop of `processRadicalSection`; the flag is `some b` when the function returns `b`
from inside the loop and `none` when the loop ends. -/
def processRadicalSection.loop {M D : Type} (ops : MolOps M D) (numRadicalElectrons : Nat) :
    Nat → Iter → Nat → M → Run (Option Bool × Iter × M)
  | 0, _, _, _ => Run.fuel
  | n + 1, first, atIdx, mol =>
    match first with
    | [] => Run.ret (none, first, mol)
    | c :: cs =>
      if c ≠ ',' then Run.ret (none, first, mol)
      else
        match cs with
        | [] =>
          (read_int cs atIdx).bind fun r =>
            if r.1 = false then Run.ret (some false, r.2.1, mol)
            else
              match ops.setNumRadicalElectrons mol r.2.2 numRadicalElectrons with
              | none => Run.raise LibExc.molecule
              | some mol1 =>
                processRadicalSection.loop ops numRadicalElectrons n r.2.1 r.2.2 mol1
        | c1 :: _ =>
          if decide (c1 < '0') || decide (c1 > '9') then Run.ret (some true, cs, mol)
          else
            (read_int cs atIdx).bind fun r =>
              if r.1 = false then Run.ret (some false, r.2.1, mol)
              else
                match ops.setNumRadicalElectrons mol r.2.2 numRadicalElectrons with
                | none => Run.raise LibExc.molecule
                | some mol1 =>
                  processRadicalSection.loop ops numRadicalElectrons n r.2.1 r.2.2 mol1

/-- The function `processRadicalSection`. -/
def processRadicalSection {M D : Type} (ops : MolOps M D) (fuel : Nat) (first : Iter) (mol : M)
    (numRadicalElectrons : Nat) : Run (Bool × Iter × M) :=
  match first with
  | [] => Run.ret (false, first, mol)
  | _ :: f1 =>
    match f1 with
    | [] => Run.ret (false, f1, mol)
    | c :: f2 =>
      if c ≠ ':' then Run.ret (false, f1, mol)
      else
        (read_int f2 0).bind fun r =>
          if r.1 = false then Run.ret (false, r.2.1, mol)
          else
            match ops.setNumRadicalElectrons mol r.2.2 numRadicalElectrons with
            | none => Run.raise LibExc.molecule
            | some mol1 =>
              (processRadicalSection.loop ops numRadicalElectrons fuel r.2.1 r.2.2 mol1).bind
                fun l =>
                  match l.1 with
                  | some b => Run.ret (b, l.2.1, l.2.2)
                  | none =>
                    match l.2.1 with
                    | [] => Run.ret (false, l.2.1, l.2.2)
                    | _ :: _ => Run.ret (true, l.2.1, l.2.2)

/-- The `switch` of `parse_radicals`: the number of radical electrons of the section that
starts with the character `c`, or `none` for the `default` label. -/
def parse_radicals.switch (c : Char) : Option Nat :=
  if c = '1' then some 1
  else if c = '2' ∨ c = '3' ∨ c = '4' then some 2
  else if c = '5' ∨ c = '6' ∨ c = '7' then some 3
  else none

/-- The loop `while (*first == '^')` of `parse_radicals`; `inner` is the fuel of the
sections. -/
def parse_radicals.loop {M D : Type} (ops : MolOps M D) (inner : Nat) :
    Nat → Iter → M → Run (Bool × Iter × M)
  | 0, _, _ => Run.fuel
  | n + 1, first, mol =>
    match first with
    | [] => Run.undefined
    | c :: cs =>
      if c ≠ '^' then Run.ret (true, first, mol)
      else
        match cs with
        | [] => Run.ret (false, cs, mol)
        | d :: _ =>
          if decide (d < '1') || decide (d > '7') then Run.ret (false, cs, mol)
          else
            match parse_radicals.switch d with
            | some k =>
              (processRadicalSection ops inner cs mol k).bind fun r =>
                if r.1 = false then Run.ret (false, r.2.1, r.2.2)
                else parse_radicals.loop ops inner n r.2.1 r.2.2
            | none => parse_radicals.loop ops inner n cs mol

/-- The function `parse_radicals`. -/
def parse_radicals {M D : Type} (ops : MolOps M D) (fuel : Nat) (first : Iter) (mol : M) :
    Run (Bool × Iter × M) :=
  match first with
  | [] => Run.ret (false, first, mol)
  | c :: _ =>
    if c ≠ '^' then Run.ret (false, first, mol)
    else parse_radicals.loop ops fuel fuel first mol

/-- The main loop of `parse_it`; the flag is `false` when the function returns `false` from
inside the loop. `inner` is the fuel of the sections. -/
def parse_it.loop {M D : Type} (ops : MolOps M D) (inner : Nat) :
    Nat → Iter → M → Run (Bool × Iter × M)
  | 0, _, _ => Run.fuel
  | n + 1, first, mol =>
    match first with
    | [] => Run.ret (true, first, mol)
    | c :: _ =>
      if c = '|' then Run.ret (true, first, mol)
      else if c = '(' then
        (parse_coords ops inner first mol).bind fun r =>
          if r.1 = false then Run.ret (false, r.2.1, r.2.2)
          else parse_it.loop ops inner n r.2.1 r.2.2
      else if c = '$' then
        (parse_atom_labels ops inner first mol).bind fun r =>
          if r.1 = false then Run.ret (false, r.2.1, r.2.2)
          else parse_it.loop ops inner n r.2.1 r.2.2
      else if c = 'C' then
        (parse_coordinate_bonds ops inner first mol).bind fun r =>
          if r.1 = false then Run.ret (false, r.2.1, r.2.2)
          else parse_it.loop ops inner n r.2.1 r.2.2
      else if c = '^' then
        (parse_radicals ops inner first mol).bind fun r =>
          if r.1 = false then Run.ret (false, r.2.1, r.2.2)
          else parse_it.loop ops inner n r.2.1 r.2.2
      else parse_it.loop ops inner n first mol

/-- The function `parse_it`. -/
def parse_it {M D : Type} (ops : MolOps M D) (fuel : Nat) (first : Iter) (mol : M) :
    Run (Bool × Iter × M) :=
  match first with
  | [] => Run.ret (false, first, mol)
  | c :: cs =>
    if c ≠ '|' then Run.ret (false, first, mol)
    else
      (parse_it.loop ops fuel fuel cs mol).bind fun r =>
        if r.1 = false then Run.ret (false, r.2.1, r.2.2)
        else
          match r.2.1 with
          | [] => Run.ret (false, r.2.1, r.2.2)
          | c1 :: cs1 =>
            if c1 ≠ '|' then Run.ret (false, r.2.1, r.2.2) else Run.ret (true, cs1, r.2.2)

/-- The query that `processCXSmilesLabels` builds for one of its six labels. -/
def processCXSmilesLabels.query (symb : List Char) : LabelQuery :=
  if symb = "star_e".toList then LabelQuery.null
  else if symb = "Q_e".toList then LabelQuery.atomOr true [6, 1]
  else if symb = "QH_p".toList then LabelQuery.atomNum true 6
  else if symb = "AH_p".toList then LabelQuery.atomNum true 1
  else if symb = "X_p".toList ∨ symb = "XH_p".toList then
    LabelQuery.atomOr false
      ([9, 17, 35, 53, 85] ++ (if symb = "XH_p".toList then [1] else []))
  else LabelQuery.unset

/-- The body of the loop of `processCXSmilesLabels` for the atom of index `i`. -/
def processCXSmilesLabels.step {M D : Type} (ops : MolOps M D) (mol : M) (i : Nat) : Run M :=
  match ops.getAtomLabel mol i with
  | none => Run.ret mol
  | some symb =>
    if symb = "AH_p".toList ∨ symb = "QH_p".toList ∨ symb = "XH_p".toList ∨
        symb = "X_p".toList ∨ symb = "Q_e".toList ∨ symb = "star_e".toList then
      match ops.setAtomLabel (ops.replaceAtom mol i (processCXSmilesLabels.query symb)) i symb with
      | none => Run.raise LibExc.molecule
      | some mol1 => Run.ret mol1
    else Run.ret mol

/-- The function `processCXSmilesLabels`: the loop over the atoms in index order. -/
def processCXSmilesLabels {M D : Type} (ops : MolOps M D) (mol : M) : Run M :=
  (List.range (ops.getNumAtoms mol)).foldl
    (fun acc i => acc.bind fun m => processCXSmilesLabels.step ops m i) (Run.ret mol)

/-- How a call of `parseCXExtensions` ends: it returns, it throws `SmilesParseException`
(in both cases with the molecule and the iterator as they then are), a library exception
passes through it, or `parse_it` does not return. -/
inductive CXOutcome (M : Type) where
  | done (mol : M) (first : Iter) : CXOutcome M
  | SmilesParseException (mol : M) (first : Iter) : CXOutcome M
  | libraryException (e : LibExc) : CXOutcome M
  | undefined : CXOutcome M
  | fuel : CXOutcome M
deriving DecidableEq, Repr

/-- The function `parseCXExtensions`. -/
def parseCXExtensions {M D : Type} (ops : MolOps M D) (fuel : Nat) (mol : M) (extText : Iter)
    (first : Iter) : CXOutcome M :=
  match extText with
  | [] => CXOutcome.done mol first
  | c :: _ =>
    if c ≠ '|' then CXOutcome.done mol first
    else
      match parse_it ops fuel extText mol with
      | Run.raise e => CXOutcome.libraryException e
      | Run.undefined => CXOutcome.undefined
      | Run.fuel => CXOutcome.fuel
      | Run.ret (ok, first1, mol1) =>
        if ok = false then CXOutcome.SmilesParseException mol1 first1
        else
          match processCXSmilesLabels ops mol1 with
          | Run.ret mol2 => CXOutcome.done mol2 first1
          | Run.raise e => CXOutcome.libraryException e
          | Run.undefined => CXOutcome.undefined
          | Run.fuel => CXOutcome.fuel

/-! ## The claims in words -/

/-- The decimal value of a run of digits: each digit times the power of ten of its place. -/
def decimalValue : List Char → Nat
  | [] => 0
  | c :: cs => (c.toNat - 48) * 10 ^ cs.length + decimalValue cs

/-- The radical-electron count of a radical code: 1 for `1`, 2 for `2`, `3`, `4`, and 3 for
`5`, `6`, `7`. -/
def radicalCount (c : Char) : Option Nat :=
  match c with
  | '1' => some 1
  | '2' => some 2
  | '3' => some 2
  | '4' => some 2
  | '5' => some 3
  | '6' => some 3
  | '7' => some 3
  | _ => none

/-- The further atom indices of a radical section written out: each run of digits preceded
by a comma, followed by the rest of the input. -/
def commaRuns : List (List Char) → Iter → Iter
  | [], rest => rest
  | r :: rs, rest => ',' :: (r ++ commaRuns rs rest)

/-- A run of digits that `read_int` reads as an atom index: not empty, digits only, with a
decimal value that fits 32 bits. -/
def IsIndexRun (r : List Char) : Prop :=
  r ≠ [] ∧ (∀ c ∈ r, isDigit c = true) ∧ decimalValue r < 2 ^ 32

/-- An input that goes on after a radical section with a character that is neither a digit,
nor a comma, nor `^`. -/
def StartsOther (rest : Iter) : Prop :=
  ∃ c cs, rest = c :: cs ∧ isDigit c = false ∧ c ≠ ',' ∧ c ≠ '^'

/-- Setting `k` radical electrons on each atom of a list of indices, in order. -/
def setRadicals {M D : Type} (ops : MolOps M D) (k : Nat) : List Nat → M → Option M
  | [], mol => some mol
  | i :: is, mol =>
    match ops.setNumRadicalElectrons mol i k with
    | none => none
    | some mol1 => setRadicals ops k is mol1

/-! ## A sample molecule -/

/-- What was done to a sample molecule. -/
inductive MolEvent where
  | label (i : Nat) (t : List Char) : MolEvent
  | conformer : MolEvent
  | pos (i : Nat) (pt : List Char × List Char × List Char) : MolEvent
  | dative (b : Nat) : MolEvent
  | bondAtoms (b a e : Nat) : MolEvent
  | radical (i k : Nat) : MolEvent
  | query (i : Nat) (q : LabelQuery) : MolEvent
deriving DecidableEq, Repr

/-- A sample molecule: a chain of `numAtoms` atoms, bond `b` joining the atoms `b` and
`b + 1`, with the record of what was done to it. -/
structure SampleMol where
  numAtoms : Nat
  events : List MolEvent
deriving DecidableEq, Repr

/-- The operations on the sample molecule; a coordinate is kept as its text. They are a
stand-in for evaluation: no theorem about the parser depends on them. -/
def sampleOps : MolOps SampleMol (List Char) where
  getNumAtoms m := m.numAtoms
  setAtomLabel m i t :=
    if i < m.numAtoms then some { m with events := m.events ++ [MolEvent.label i t] } else none
  getAtomLabel m i :=
    m.events.reverse.findSome? fun ev =>
      match ev with
      | MolEvent.label j t => if j = i then some t else none
      | _ => none
  addConformer m := { m with events := m.events ++ [MolEvent.conformer] }
  setAtomPos m i pt := { m with events := m.events ++ [MolEvent.pos i pt] }
  castDouble t :=
    if t.all (fun c => isDigit c || c == '.' || c == '-') then some t else none
  zero := ['0']
  bondAtoms m b :=
    if b + 1 < m.numAtoms then
      some ((m.events.reverse.findSome? fun ev =>
        match ev with
        | MolEvent.bondAtoms j a e => if j = b then some (a, e) else none
        | _ => none).getD (b, b + 1))
    else none
  setBondDative m b := { m with events := m.events ++ [MolEvent.dative b] }
  setBondAtoms m b a e := { m with events := m.events ++ [MolEvent.bondAtoms b a e] }
  setNumRadicalElectrons m i k :=
    if i < m.numAtoms then some { m with events := m.events ++ [MolEvent.radical i k] } else none
  replaceAtom m i q := { m with events := m.events ++ [MolEvent.query i q] }

/-- A sample molecule of 8 atoms to which nothing was done yet. -/
def sampleMol : SampleMol := { numAtoms := 8, events := [] }

end SmilesParseOps

namespace RDKit

/-! ## Basic facts about the helpers -/

theorem enumerationOverflow_eq : EnumerationOverflow = 18446744073709551615 := by decide

theorem exactProduct_eq_prod (sizes : RGROUPS) : exactProduct sizes = sizes.prod := by
  unfold exactProduct
  rw [List.prod_eq_foldl]

theorem computeNumProducts_eq (sizes : RGROUPS) :
    computeNumProducts sizes
      = if sizes.prod ≤ 18446744073709551615 then sizes.prod else 18446744073709551615 := by
  simp only [computeNumProducts, SIZE_MAX, SIZE_MOD, enumerationOverflow_eq,
    exactProduct_eq_prod]
  generalize sizes.prod = p
  split_ifs <;> omega

theorem getSizesFromBBs_loop_eq {T : Type} (bbs : List (List T)) (acc : List Nat) :
    getSizesFromBBs.loop bbs acc = acc ++ bbs.map List.length := by
  induction bbs generalizing acc with
  | nil => simp [getSizesFromBBs.loop]
  | cons b rest ih => simp [getSizesFromBBs.loop, ih]

theorem getSizesFromBBs_eq_map {T : Type} (bbs : List (List T)) :
    getSizesFromBBs bbs = bbs.map List.length := by
  simp [getSizesFromBBs, getSizesFromBBs_loop_eq]

theorem pushDistributions_eq (sizes : List Nat) (ds : List Dist) :
    pushDistributions sizes ds
      = ds ++ sizes.map (fun n => { min := 0, max := toInt32 (decSizeT n) }) := by
  induction sizes generalizing ds with
  | nil => simp [pushDistributions]
  | cons n rest ih => simp [pushDistributions, ih]

theorem length_resize (v : List Nat) (n : Nat) : (resize v n).length = n := by
  simp only [resize, List.length_append, List.length_take, List.length_replicate]
  omega

theorem fill_resize (v : List Nat) (n : Nat) : fill (resize v n) 0 = List.replicate n 0 := by
  apply List.ext_getElem
  · simp [fill, length_resize]
  · intro i h1 h2
    simp [fill]

/-! ## The product count -/

/-- C1 (as amended): for every size vector, `computeNumProducts` returns the value
`EnumerationOverflow` if and only if the exact product of the sizes is at least the largest
`size_t` value (it exceeds it, or it is equal to it, where the exact count is the sentinel
value itself); the value returned is the exact product whenever the product does not exceed
that maximum and the sentinel otherwise; and the value returned is the product reduced modulo
`2 ^ 64` exactly when the product does not exceed the maximum or the reduced product is
itself the sentinel value `2 ^ 64 - 1`. -/
theorem computeNumProducts_overflow_iff (sizes : RGROUPS) :
    (computeNumProducts sizes = EnumerationOverflow ↔ SIZE_MAX ≤ sizes.prod) ∧
    computeNumProducts sizes
      = (if sizes.prod ≤ SIZE_MAX then sizes.prod else EnumerationOverflow) ∧
    (computeNumProducts sizes = sizes.prod % SIZE_MOD ↔
      (sizes.prod ≤ SIZE_MAX ∨ sizes.prod % SIZE_MOD = SIZE_MAX)) := by
  rw [computeNumProducts_eq, enumerationOverflow_eq]
  simp only [SIZE_MAX, SIZE_MOD]
  generalize sizes.prod = p
  refine ⟨?_, rfl, ?_⟩
  · split_ifs <;> omega
  · split_ifs <;> omega

/-- C1 (as stated) fails: two sites of sizes `2 ^ 32 - 1` and `2 ^ 32 + 1` have the product
`2 ^ 64 - 1`, which does not exceed the largest `size_t` value, and `computeNumProducts`
returns the value `EnumerationOverflow`; and for the sizes `[31, 8191, 145295143558111]`,
whose product `2 ^ 65 - 1` exceeds the largest `size_t` value, the value returned is the
product reduced modulo `2 ^ 64`. -/
theorem computeNumProducts_sentinel_without_overflow :
    computeNumProducts [4294967295, 4294967297] = EnumerationOverflow ∧
    ¬ (SIZE_MAX < [4294967295, 4294967297].prod) ∧
    SIZE_MAX < [31, 8191, 145295143558111].prod ∧
    computeNumProducts [31, 8191, 145295143558111]
      = [31, 8191, 145295143558111].prod % SIZE_MOD := by
  decide

/-- C3: for every size vector with at least one 0 entry, `computeNumProducts` returns exactly
0 and not the sentinel `EnumerationOverflow`, whatever the other entries are. -/
theorem computeNumProducts_zero_entry (sizes : RGROUPS) (h : 0 ∈ sizes) :
    computeNumProducts sizes = 0 ∧ computeNumProducts sizes ≠ EnumerationOverflow := by
  rw [computeNumProducts_eq, enumerationOverflow_eq, List.prod_eq_zero h]
  decide

/-- C3 witness: `[2 ^ 63, 4, 0]`, where the product of the non-zero entries alone is
`2 ^ 65`. -/
theorem computeNumProducts_zero_entry_witness :
    0 ∈ [9223372036854775808, 4, 0] ∧ SIZE_MAX < 9223372036854775808 * 4 ∧
    (computeNumProducts [9223372036854775808, 4, 0] = 0 ∧
     computeNumProducts [9223372036854775808, 4, 0] ≠ EnumerationOverflow) :=
  ⟨by decide, by decide, computeNumProducts_zero_entry [9223372036854775808, 4, 0] (by decide)⟩

/-! ## Initialisation -/

/-- C4: `computeNumProducts` of the empty size vector is 1, and a strategy initialized with
an empty list of building-block collections reports `getNumPermutations() = 1`, whatever its
state was before. -/
theorem computeNumProducts_nil_initialize_nil {G X M : Type} (s : RandomSampleStrategy G)
    (reaction : X) :
    computeNumProducts [] = 1 ∧
    RandomSampleStrategy.getNumPermutations ( s.initialize reaction ([] : List (List M))) = 1 := by
  constructor
  · decide
  · simp only [RandomSampleStrategy.getNumPermutations, RandomSampleStrategy.initialize,
      RandomSampleStrategy.initializeStrategy, EnumerationStrategyBase.initialize,
      getSizesFromBBs, getSizesFromBBs.loop]
    decide

/-- C5: after `initialize(reaction, bbs)` from any prior state, the size vector is the list
of the lengths of the collections, the position vector has the same length and is all zeros,
the cached total is `computeNumProducts` of the size vector, and building blocks with the
same lengths (with any reaction) give the same state. -/
theorem initialize_postcondition {G X M X' M' : Type} (s : RandomSampleStrategy G)
    (reaction : X) (bbs : List (List M)) (reaction' : X') (bbs' : List (List M'))
    (h : bbs'.map List.length = bbs.map List.length) :
    ( s.initialize reaction bbs).m_permutationSizes = bbs.map List.length ∧
    ( s.initialize reaction bbs).m_permutation.length = bbs.length ∧
    ( s.initialize reaction bbs).m_permutation = List.replicate bbs.length 0 ∧
    ( s.initialize reaction bbs).m_numPermutations
      = computeNumProducts ( s.initialize reaction bbs).m_permutationSizes ∧
    s.initialize reaction' bbs' = s.initialize reaction bbs := by
  simp only [getSizesFromBBs_eq_map, RandomSampleStrategy.initialize,
    RandomSampleStrategy.initializeStrategy,
    EnumerationStrategyBase.initialize, fill_resize, h,
    List.length_map, List.length_replicate, and_self]

/-- C5 witness: the three sites of `sampleStart`, given again as Booleans with another
reaction value, on a default-constructed strategy. -/
theorem initialize_postcondition_witness :
    [[true, false, true, true], [true], [true, true, true, true, false, false, false]].map
        List.length
      = [[1, 2, 3, 4], [5], [1, 2, 3, 4, 5, 6, 7]].map List.length ∧
    sampleStart.m_permutationSizes = [4, 1, 7] ∧
    sampleStart.m_permutation = [0, 0, 0] ∧
    sampleStart.m_numPermutations = 28 ∧
    RandomSampleStrategy.initialize (RandomSampleStrategy.ctor sampleLib) 'r'
        [[true, false, true, true], [true], [true, true, true, true, false, false, false]]
      = sampleStart :=
  ⟨by decide,
    (initialize_postcondition (RandomSampleStrategy.ctor sampleLib) ()
      [[1, 2, 3, 4], [5], [1, 2, 3, 4, 5, 6, 7]] 'r'
      [[true, false, true, true], [true], [true, true, true, true, false, false, false]]
      (by decide)).1,
    by decide, by decide,
    (initialize_postcondition (RandomSampleStrategy.ctor sampleLib) ()
      [[1, 2, 3, 4], [5], [1, 2, 3, 4, 5, 6, 7]] 'r'
      [[true, false, true, true], [true], [true, true, true, true, false, false, false]]
      (by decide)).2.2.2.2⟩

/-- C6: `operator bool` of a `RandomSampleStrategy` is true in every state. -/
theorem hasNext_always {G : Type} (s : RandomSampleStrategy G) : s.hasNext = true := rfl

/-! ## Facts about `next` and `skip` -/

theorem next_loop_length {G : Type} (R : RandomLib G) (dists : List Dist) (k i : Nat)
    (perm : RGROUPS) (g : G) (perm' : RGROUPS) (g' : G)
    (h : RandomSampleStrategy.next.loop R dists k i perm g = some (perm', g')) :
    perm'.length = perm.length := by
  induction k generalizing i perm g with
  | zero =>
    simp only [RandomSampleStrategy.next.loop, Option.some.injEq, Prod.mk.injEq] at h
    rw [← h.1]
  | succ k ih =>
    simp only [RandomSampleStrategy.next.loop] at h
    cases hd : dists[i]? with
    | none => simp [hd] at h
    | some d =>
      simp only [hd] at h
      rw [ih _ _ _ h, List.length_set]

theorem next_loop_isSome {G : Type} (R : RandomLib G) (dists : List Dist) (k i : Nat)
    (perm : RGROUPS) (g : G) (h : i + k ≤ dists.length) :
    ∃ r, RandomSampleStrategy.next.loop R dists k i perm g = some r := by
  induction k generalizing i perm g with
  | zero => exact ⟨_, rfl⟩
  | succ k ih =>
    have hi : i < dists.length := by omega
    simp only [RandomSampleStrategy.next.loop, List.getElem?_eq_getElem hi]
    exact ih _ _ _ (by omega)

/-- What a successful `next()` leaves alone and what it returns. -/
theorem next_frame {G : Type} (R : RandomLib G) (s s' : RandomSampleStrategy G) (v : RGROUPS)
    (h : RandomSampleStrategy.next R s = some (v, s')) :
    s'.m_permutationSizes = s.m_permutationSizes ∧
    s'.m_numPermutations = s.m_numPermutations ∧
    s'.m_distributions = s.m_distributions ∧
    s'.m_permutation = v ∧
    v.length = s.m_permutation.length ∧
    s'.m_numPermutationsProcessed = (s.m_numPermutationsProcessed + 1) % SIZE_MOD := by
  unfold RandomSampleStrategy.next at h
  cases hl : RandomSampleStrategy.next.loop R s.m_distributions s.m_permutation.length 0
      s.m_permutation s.m_rng with
  | none => simp [hl] at h
  | some r =>
    obtain ⟨perm, g⟩ := r
    simp only [hl, Option.some.injEq, Prod.mk.injEq] at h
    obtain ⟨hv, hs⟩ := h
    subst hs
    subst hv
    exact ⟨rfl, rfl, rfl, rfl, next_loop_length R _ _ _ _ _ _ _ hl, rfl⟩

/-- A call of `next()` is defined whenever there are at least as many distributions as
positions. -/
theorem next_isSome {G : Type} (R : RandomLib G) (s : RandomSampleStrategy G)
    (h : s.m_permutation.length ≤ s.m_distributions.length) :
    ∃ v s', RandomSampleStrategy.next R s = some (v, s') := by
  obtain ⟨⟨perm, g⟩, hr⟩ := next_loop_isSome R s.m_distributions s.m_permutation.length 0
    s.m_permutation s.m_rng (by omega)
  unfold RandomSampleStrategy.next
  rw [hr]
  exact ⟨_, _, rfl⟩

theorem iterate_callNext_none {G : Type} (R : RandomLib G) (n : Nat) :
    (RandomSampleStrategy.callNext R)^[n] none = none := by
  induction n with
  | zero => rfl
  | succ n ih => rw [Function.iterate_succ_apply]; exact ih

theorem nextTimes_succ {G : Type} (R : RandomLib G) (n : Nat) (s : RandomSampleStrategy G) :
    RandomSampleStrategy.nextTimes R (n + 1) s
      = match RandomSampleStrategy.next R s with
        | none => none
        | some (_, s') => RandomSampleStrategy.nextTimes R n s' := by
  unfold RandomSampleStrategy.nextTimes
  rw [Function.iterate_succ_apply]
  cases hn : RandomSampleStrategy.next R s with
  | none => simp [RandomSampleStrategy.callNext, hn, iterate_callNext_none]
  | some r => simp [RandomSampleStrategy.callNext, hn]

theorem skip_eq_nextTimes {G : Type} (R : RandomLib G) (n : Nat) (s : RandomSampleStrategy G) :
    RandomSampleStrategy.skip R n s
      = (RandomSampleStrategy.nextTimes R n s).map (fun s' => (true, s')) := by
  induction n generalizing s with
  | zero => rfl
  | succ n ih =>
    rw [nextTimes_succ]
    simp only [RandomSampleStrategy.skip]
    cases hn : RandomSampleStrategy.next R s with
    | none => rfl
    | some r => exact ih r.2

theorem nextTimes_isSome {G : Type} (R : RandomLib G) (n : Nat) (s : RandomSampleStrategy G)
    (h : s.m_permutation.length ≤ s.m_distributions.length) :
    ∃ s', RandomSampleStrategy.nextTimes R n s = some s' ∧
      s'.m_permutation.length = s.m_permutation.length ∧
      s'.m_distributions = s.m_distributions ∧
      s'.m_permutationSizes = s.m_permutationSizes ∧
      s'.m_numPermutations = s.m_numPermutations := by
  induction n generalizing s with
  | zero => exact ⟨s, rfl, rfl, rfl, rfl, rfl⟩
  | succ n ih =>
    obtain ⟨v, s1, h1⟩ := next_isSome R s h
    obtain ⟨f1, f2, f3, f4, f5, _⟩ := next_frame R s s1 v h1
    obtain ⟨s2, h2, g1, g2, g3, g4⟩ := ih s1 (by rw [f4, f5, f3]; exact h)
    refine ⟨s2, ?_, ?_, ?_, ?_, ?_⟩
    · rw [nextTimes_succ, h1]; exact h2
    · rw [g1, f4, f5]
    · rw [g2, f3]
    · rw [g3, f1]
    · rw [g4, f2]

/-- C8: `skip(n)` is `n` sequential calls of `next()`: in every state the state after
`skip(n)` is the state after `n` calls of `next()` (both are undefined together), the value
returned is `true`, `skip(0)` returns `true` and leaves the state unchanged, the tuple returned
by `next()` after `skip(n)` is the tuple returned by the last of `n + 1` calls of `next()`,
and `skip(n)` does return whenever there are at least as many distributions as positions. -/
theorem skip_eq_next_calls {G : Type} (R : RandomLib G) (s : RandomSampleStrategy G) (n : Nat) :
    (RandomSampleStrategy.skip R n s).map Prod.snd = RandomSampleStrategy.nextTimes R n s ∧
    (∀ r, RandomSampleStrategy.skip R n s = some r → r.1 = true) ∧
    RandomSampleStrategy.skip R 0 s = some (true, s) ∧
    ((RandomSampleStrategy.skip R n s).bind
        fun r => (RandomSampleStrategy.next R r.2).map Prod.fst)
      = ((RandomSampleStrategy.nextTimes R n s).bind
        fun s' => (RandomSampleStrategy.next R s').map Prod.fst) ∧
    (s.m_permutation.length ≤ s.m_distributions.length →
      ∃ s', RandomSampleStrategy.skip R n s = some (true, s')) := by
  refine ⟨?_, ?_, rfl, ?_, ?_⟩
  · rw [skip_eq_nextTimes]
    cases RandomSampleStrategy.nextTimes R n s <;> rfl
  · intro r hr
    rw [skip_eq_nextTimes] at hr
    cases hn : RandomSampleStrategy.nextTimes R n s with
    | none => simp [hn] at hr
    | some s' =>
      simp only [hn, Option.map_some', Option.some.injEq] at hr
      rw [← hr]
  · rw [skip_eq_nextTimes]
    cases RandomSampleStrategy.nextTimes R n s <;> rfl
  · intro h
    obtain ⟨s', hs', _⟩ := nextTimes_isSome R n s h
    exact ⟨s', by rw [skip_eq_nextTimes, hs']; rfl⟩

/-! ## The sample library obeys the library contracts -/

theorem sampleLib_streamRoundTrip : sampleLib.StreamRoundTrip := by
  intro g
  simp [sampleLib]

theorem sampleLib_inRange : sampleLib.InRange := by
  intro a b g hab
  simp only [sampleLib, if_pos hab]
  have h1 : 0 < b - a + 1 := by omega
  have h2 := Int.emod_nonneg ((48271 * g % 2147483647 : Nat) : Int) (ne_of_gt h1)
  have h3 := Int.emod_lt_of_pos ((48271 * g % 2147483647 : Nat) : Int) h1
  constructor <;> omega

/-- C8 witness: `skip(2)` on `sampleStart` returns. -/
theorem skip_eq_next_calls_witness :
    sampleStart.m_permutation.length ≤ sampleStart.m_distributions.length ∧
    ∃ s', RandomSampleStrategy.skip sampleLib 2 sampleStart = some (true, s') :=
  ⟨by decide, (skip_eq_next_calls sampleLib sampleStart 2).2.2.2.2 (by decide)⟩

/-! ## Reachable states -/

theorem nextTimes_frame {G : Type} (R : RandomLib G) (n : Nat) (s s' : RandomSampleStrategy G)
    (h : RandomSampleStrategy.nextTimes R n s = some s') :
    s'.m_permutation.length = s.m_permutation.length ∧
    s'.m_distributions = s.m_distributions ∧
    s'.m_permutationSizes = s.m_permutationSizes ∧
    s'.m_numPermutations = s.m_numPermutations := by
  induction n generalizing s with
  | zero =>
    simp only [RandomSampleStrategy.nextTimes, Function.iterate_zero, id_eq,
      Option.some.injEq] at h
    subst h
    exact ⟨rfl, rfl, rfl, rfl⟩
  | succ n ih =>
    rw [nextTimes_succ] at h
    cases hn : RandomSampleStrategy.next R s with
    | none => simp [hn] at h
    | some r =>
      obtain ⟨v, s1⟩ := r
      simp only [hn] at h
      obtain ⟨f1, f2, f3, f4, f5, _⟩ := next_frame R s s1 v hn
      obtain ⟨g1, g2, g3, g4⟩ := ih s1 h
      exact ⟨by rw [g1, f4, f5], by rw [g2, f3], by rw [g3, f1], by rw [g4, f2]⟩

/-- In every reachable state the distributions are the ones built from the size vector and
the position vector is as long as the size vector. -/
theorem reachable_invariant {G : Type} (R : RandomLib G) (s : RandomSampleStrategy G)
    (h : Reachable R s) :
    s.m_distributions = pushDistributions s.m_permutationSizes [] ∧
    s.m_permutation.length = s.m_permutationSizes.length := by
  induction h with
  | ctor => exact ⟨rfl, rfl⟩
  | init s reaction bbs _ _ =>
    simp [fill_resize, RandomSampleStrategy.initialize, RandomSampleStrategy.initializeStrategy,
      EnumerationStrategyBase.initialize]
  | next s v s' _ hn ih =>
    obtain ⟨f1, _, f3, f4, f5, _⟩ := next_frame R s s' v hn
    exact ⟨by rw [f3, f1]; exact ih.1, by rw [f4, f5, f1]; exact ih.2⟩
  | skip s n b s' _ hn ih =>
    rw [skip_eq_nextTimes] at hn
    cases ht : RandomSampleStrategy.nextTimes R n s with
    | none => simp [ht] at hn
    | some s1 =>
      simp only [ht, Option.map_some', Option.some.injEq, Prod.mk.injEq] at hn
      obtain ⟨g1, g2, g3, _⟩ := nextTimes_frame R n s s1 ht
      rw [← hn.2]
      exact ⟨by rw [g2, g3]; exact ih.1, by rw [g1, g3]; exact ih.2⟩
  | Clone s _ ih => exact ih
  | load s t _ _ ih _ => exact ⟨rfl, ih.2⟩

theorem reachable_lengths {G : Type} (R : RandomLib G) (s : RandomSampleStrategy G)
    (h : Reachable R s) : s.m_permutation.length ≤ s.m_distributions.length := by
  obtain ⟨h1, h2⟩ := reachable_invariant R s h
  rw [h1, pushDistributions_eq, h2]
  simp

theorem reachable_sampleAfter : Reachable sampleLib sampleAfter :=
  Reachable.next sampleStart [3, 0, 5] sampleAfter
    (Reachable.init (RandomSampleStrategy.ctor sampleLib) ()
      [[1, 2, 3, 4], [5], [1, 2, 3, 4, 5, 6, 7]] Reachable.ctor)
    (by rfl)

theorem draws_isSome {G : Type} (R : RandomLib G) (n : Nat) (s : RandomSampleStrategy G)
    (h : s.m_permutation.length ≤ s.m_distributions.length) :
    ∃ vs, RandomSampleStrategy.draws R n s = some vs ∧ vs.length = n := by
  induction n generalizing s with
  | zero => exact ⟨[], rfl, rfl⟩
  | succ n ih =>
    obtain ⟨v, s1, h1⟩ := next_isSome R s h
    obtain ⟨_, _, f3, f4, f5, _⟩ := next_frame R s s1 v h1
    obtain ⟨vs, h2, h3⟩ := ih s1 (by rw [f4, f5, f3]; exact h)
    refine ⟨v :: vs, ?_, by simp [h3]⟩
    simp only [RandomSampleStrategy.draws, h1, h2, Option.map_some']

/-! ## Save and load -/

theorem load_save {G : Type} (R : RandomLib G) (hR : R.StreamRoundTrip)
    (s t : RandomSampleStrategy G)
    (hd : s.m_distributions = pushDistributions s.m_permutationSizes []) :
    RandomSampleStrategy.load R t (RandomSampleStrategy.save R s) = s := by
  obtain ⟨b, c, g, d⟩ := s
  simp only [RandomSampleStrategy.load, RandomSampleStrategy.save, hR g]
  simp only at hd
  rw [← hd]

/-- C9: for a library whose generator is read back as written, for every reachable state `s`
and every target instance `t` whatsoever, loading into `t` the archive saved from `s` gives
a state equal to `s` in every field (position, sizes, cached total, processed counter,
generator, distributions); so for every `n` the next `n` tuples of the restored instance are
the next `n` tuples of `s`, and these `n` draws are defined. -/
theorem load_save_roundtrip {G : Type} (R : RandomLib G) (hR : R.StreamRoundTrip)
    (s t : RandomSampleStrategy G) (hs : Reachable R s) (n : Nat) :
    RandomSampleStrategy.load R t (RandomSampleStrategy.save R s) = s ∧
    RandomSampleStrategy.draws R n (RandomSampleStrategy.load R t (RandomSampleStrategy.save R s))
      = RandomSampleStrategy.draws R n s ∧
    ∃ vs, RandomSampleStrategy.draws R n s = some vs ∧ vs.length = n := by
  have h := load_save R hR s t (reachable_invariant R s hs).1
  exact ⟨h, by rw [h], draws_isSome R n s (reachable_lengths R s hs)⟩

/-- C9 witness: the state of `sampleStart` after one `next()`, restored into a
default-constructed instance. -/
theorem load_save_roundtrip_witness :
    sampleLib.StreamRoundTrip ∧ Reachable sampleLib sampleAfter ∧
    (RandomSampleStrategy.load sampleLib (RandomSampleStrategy.ctor sampleLib)
        (RandomSampleStrategy.save sampleLib sampleAfter) = sampleAfter ∧
      RandomSampleStrategy.draws sampleLib 3
          (RandomSampleStrategy.load sampleLib (RandomSampleStrategy.ctor sampleLib)
            (RandomSampleStrategy.save sampleLib sampleAfter))
        = RandomSampleStrategy.draws sampleLib 3 sampleAfter ∧
      ∃ vs, RandomSampleStrategy.draws sampleLib 3 sampleAfter = some vs ∧ vs.length = 3) :=
  ⟨sampleLib_streamRoundTrip, reachable_sampleAfter,
    load_save_roundtrip sampleLib sampleLib_streamRoundTrip sampleAfter
      (RandomSampleStrategy.ctor sampleLib) reachable_sampleAfter 3⟩

/-! ## Clone -/

theorem clone_eq {G : Type} (s : RandomSampleStrategy G) : s.Clone = s := rfl

/-- Calls of `next()` through the address `p` act on the object at `p` only. -/
theorem store_nextTimes_eq {G : Type} (R : RandomLib G) (p n : Nat) (h : Store G)
    (s : RandomSampleStrategy G) (hp : h[p]? = some s) :
    Store.nextTimes R p n h
      = (RandomSampleStrategy.nextTimes R n s).map (fun s' => h.set p s') := by
  induction n generalizing h s with
  | zero =>
    simp only [Store.nextTimes, RandomSampleStrategy.nextTimes, Function.iterate_zero, id_eq,
      Option.map_some', Option.some.injEq]
    apply List.ext_getElem?
    intro i
    by_cases hi : p = i
    · subst hi
      obtain ⟨hlt, _⟩ := List.getElem?_eq_some_iff.mp hp
      rw [List.getElem?_set_self hlt, hp]
    · rw [List.getElem?_set_ne hi]
  | succ n ih =>
    rw [nextTimes_succ]
    simp only [Store.nextTimes, Store.next, hp]
    cases hn : RandomSampleStrategy.next R s with
    | none => rfl
    | some r =>
      obtain ⟨v, s1⟩ := r
      obtain ⟨hlt, _⟩ := List.getElem?_eq_some_iff.mp hp
      simp only []
      rw [ih (h.set p s1) s1 (List.getElem?_set_self hlt)]
      simp only [List.set_set]

theorem store_nextTimes_other {G : Type} (R : RandomLib G) (p q n : Nat) (h : Store G)
    (s : RandomSampleStrategy G) (hp : h[p]? = some s) (hq : p ≠ q) :
    (Store.nextTimes R p n h).map (fun h' => h'[q]?)
      = (RandomSampleStrategy.nextTimes R n s).map (fun _ => h[q]?) := by
  rw [store_nextTimes_eq R p n h s hp]
  cases RandomSampleStrategy.nextTimes R n s with
  | none => rfl
  | some s' => simp only [Option.map_some', List.getElem?_set_ne hq]

theorem store_nextTimes_self {G : Type} (R : RandomLib G) (p n : Nat) (h : Store G)
    (s : RandomSampleStrategy G) (hp : h[p]? = some s) :
    (Store.nextTimes R p n h).map (fun h' => h'[p]?)
      = (RandomSampleStrategy.nextTimes R n s).map some := by
  rw [store_nextTimes_eq R p n h s hp]
  obtain ⟨hlt, _⟩ := List.getElem?_eq_some_iff.mp hp
  cases RandomSampleStrategy.nextTimes R n s with
  | none => rfl
  | some s' => simp only [Option.map_some', List.getElem?_set_self hlt]

/-- C10: for every state `s` of an object at address `p`, `Clone()` allocates a new object at
another address whose state equals `s`, and leaves the original as it was; for every `n`, `n`
calls of `next()` on the clone and on the original return the same tuples; `n` calls of
`next()` on the clone leave the original in state `s`, and `n` calls on the original leave the
clone in state `s`, while the object called reaches the state that `n` calls of `next()`
give from `s`; these calls are defined whenever `s` has at least as many distributions as
positions. -/
theorem clone_independent {G : Type} (R : RandomLib G) (h : Store G) (p : Nat)
    (s : RandomSampleStrategy G) (hp : h[p]? = some s) (n : Nat) :
    s.Clone = s ∧
    Store.Clone h p = some (h.length, h ++ [s.Clone]) ∧
    p ≠ h.length ∧
    (h ++ [s.Clone])[p]? = some s ∧
    (h ++ [s.Clone])[h.length]? = some s ∧
    RandomSampleStrategy.draws R n s.Clone = RandomSampleStrategy.draws R n s ∧
    (Store.nextTimes R h.length n (h ++ [s.Clone])).map (fun h' => h'[p]?)
      = (RandomSampleStrategy.nextTimes R n s).map (fun _ => some s) ∧
    (Store.nextTimes R p n (h ++ [s.Clone])).map (fun h' => h'[h.length]?)
      = (RandomSampleStrategy.nextTimes R n s).map (fun _ => some s) ∧
    (Store.nextTimes R h.length n (h ++ [s.Clone])).map (fun h' => h'[h.length]?)
      = (RandomSampleStrategy.nextTimes R n s).map some ∧
    (Store.nextTimes R p n (h ++ [s.Clone])).map (fun h' => h'[p]?)
      = (RandomSampleStrategy.nextTimes R n s).map some ∧
    (s.m_permutation.length ≤ s.m_distributions.length →
      ∃ s', RandomSampleStrategy.nextTimes R n s = some s') := by
  obtain ⟨hlt, _⟩ := List.getElem?_eq_some_iff.mp hp
  have hne : p ≠ h.length := by omega
  have hpo : (h ++ [s.Clone])[p]? = some s := by
    rw [List.getElem?_append_left hlt, hp]
  have hco : (h ++ [s.Clone])[h.length]? = some s := by
    simp [clone_eq]
  refine ⟨rfl, ?_, hne, hpo, hco, rfl, ?_, ?_, ?_, ?_, ?_⟩
  · simp only [Store.Clone, hp]
  · rw [store_nextTimes_other R h.length p n _ s hco (Ne.symm hne), hpo]
  · rw [store_nextTimes_other R p h.length n _ s hpo hne, hco]
  · exact store_nextTimes_self R h.length n _ s hco
  · exact store_nextTimes_self R p n _ s hpo
  · intro hl
    obtain ⟨s', hs', _⟩ := nextTimes_isSome R n s hl
    exact ⟨s', hs'⟩

/-- C10 witness: a store holding `sampleAfter` at address 0; the clone is allocated at
address 1 and each of the two objects is called 5 times. -/
theorem clone_independent_witness :
    [sampleAfter][0]? = some sampleAfter ∧
    Store.Clone [sampleAfter] 0 = some (1, [sampleAfter, sampleAfter.Clone]) ∧
    (Store.nextTimes sampleLib 1 5 [sampleAfter, sampleAfter.Clone]).map (fun h' => h'[0]?)
      = (RandomSampleStrategy.nextTimes sampleLib 5 sampleAfter).map
          (fun _ => some sampleAfter) ∧
    (Store.nextTimes sampleLib 0 5 [sampleAfter, sampleAfter.Clone]).map (fun h' => h'[1]?)
      = (RandomSampleStrategy.nextTimes sampleLib 5 sampleAfter).map
          (fun _ => some sampleAfter) ∧
    ∃ s', RandomSampleStrategy.nextTimes sampleLib 5 sampleAfter = some s' :=
  ⟨rfl,
    (clone_independent sampleLib [sampleAfter] 0 sampleAfter rfl 5).2.1,
    (clone_independent sampleLib [sampleAfter] 0 sampleAfter rfl 5).2.2.2.2.2.2.1,
    (clone_independent sampleLib [sampleAfter] 0 sampleAfter rfl 5).2.2.2.2.2.2.2.1,
    (clone_independent sampleLib [sampleAfter] 0 sampleAfter rfl 5).2.2.2.2.2.2.2.2.2.2
      (by decide)⟩

/-! ## Positions stay within the sizes -/

theorem toInt32_decSizeT_of_le (n : Nat) (h1 : 0 < n) (h2 : n ≤ 2147483648) :
    toInt32 (decSizeT n) = (n : Int) - 1 := by
  simp only [toInt32, decSizeT, SIZE_MOD]
  have h3 : (n + 2 ^ 64 - 1) % 2 ^ 64 = n - 1 := by omega
  rw [h3]
  have h4 : (n - 1) % 2 ^ 32 = n - 1 := by omega
  rw [h4, if_pos (by omega)]
  omega

theorem toSizeT_of_nonneg (v : Int) (h1 : 0 ≤ v) (h2 : v < 2147483648) :
    toSizeT v = v.toNat := by
  simp only [toSizeT, SIZE_MOD]
  congr 1
  apply Int.emod_eq_of_lt h1
  norm_num
  omega

/-- The loop of `next` leaves the entries below the loop index alone and writes into each
later entry a value drawn from the distribution of the same index. -/
theorem next_loop_spec {G : Type} (R : RandomLib G) (dists : List Dist) (k i : Nat)
    (perm : RGROUPS) (g : G) (perm' : RGROUPS) (g' : G)
    (h : RandomSampleStrategy.next.loop R dists k i perm g = some (perm', g'))
    (hk : i + k ≤ perm.length) (j : Nat) :
    (j < i → perm'[j]? = perm[j]?) ∧
    (i ≤ j → j < i + k →
      ∃ d g0, dists[j]? = some d ∧ perm'[j]? = some (toSizeT (R.draw d.min d.max g0).1)) := by
  induction k generalizing i perm g with
  | zero =>
    simp only [RandomSampleStrategy.next.loop, Option.some.injEq, Prod.mk.injEq] at h
    rw [← h.1]
    exact ⟨fun _ => rfl, fun h1 h2 => by omega⟩
  | succ k ih =>
    simp only [RandomSampleStrategy.next.loop] at h
    cases hd : dists[i]? with
    | none => simp [hd] at h
    | some d =>
      simp only [hd] at h
      have hi : i < perm.length := by omega
      obtain ⟨ih1, ih2⟩ := ih (i + 1) _ _ h (by rw [List.length_set]; omega)
      constructor
      · intro hj
        rw [ih1 (by omega), List.getElem?_set_ne (by omega)]
      · intro h1 h2
        by_cases hji : j = i
        · subst hji
          refine ⟨d, g, hd, ?_⟩
          rw [ih1 (by omega), List.getElem?_set_self hi]
        · exact ih2 (by omega) (by omega)

theorem next_inBounds {G : Type} (R : RandomLib G) (hR : R.InRange)
    (s : RandomSampleStrategy G) (hs : InBounds s) :
    ∃ v s', RandomSampleStrategy.next R s = some (v, s') ∧ InBounds s' ∧
      s'.m_permutationSizes = s.m_permutationSizes := by
  obtain ⟨hd, hl, hz, _⟩ := hs
  have hdl : s.m_distributions.length = s.m_permutation.length := by
    rw [hd, pushDistributions_eq, hl]; simp
  obtain ⟨v, s', hn⟩ := next_isSome R s (by omega)
  obtain ⟨f1, _, f3, f4, f5, _⟩ := next_frame R s s' v hn
  refine ⟨v, s', hn, ⟨by rw [f3, f1]; exact hd, by rw [f4, f5, f1]; exact hl,
    by rw [f1]; exact hz, ?_⟩, f1⟩
  intro j x n hx hnj
  rw [f1] at hnj
  rw [f4] at hx
  unfold RandomSampleStrategy.next at hn
  cases hloop : RandomSampleStrategy.next.loop R s.m_distributions s.m_permutation.length 0
      s.m_permutation s.m_rng with
  | none => simp [hloop] at hn
  | some r =>
    obtain ⟨perm, g⟩ := r
    simp only [hloop, Option.some.injEq, Prod.mk.injEq] at hn
    have hv : perm = v := hn.1
    subst hv
    have hjlt : j < s.m_permutation.length := by
      have := (List.getElem?_eq_some_iff.mp hnj).1
      omega
    obtain ⟨d, g0, hdj, hpj⟩ :=
      (next_loop_spec R _ _ 0 _ _ _ _ hloop (by omega) j).2 (by omega) (by omega)
    rw [hd, pushDistributions_eq, List.nil_append, List.getElem?_map, hnj] at hdj
    simp only [Option.map_some', Option.some.injEq] at hdj
    obtain ⟨hn1, hn2⟩ := hz n (List.getElem?_mem hnj)
    rw [hpj] at hx
    simp only [Option.some.injEq] at hx
    obtain ⟨dmin, dmax⟩ := d
    simp only [Dist.mk.injEq] at hdj
    obtain ⟨hmin, hmax⟩ := hdj
    rw [toInt32_decSizeT_of_le n hn1 hn2] at hmax
    have hb := hR dmin dmax g0 (by omega)
    simp only at hx
    generalize (R.draw dmin dmax g0).1 = val at hb hx
    rw [← hx, toSizeT_of_nonneg val (by omega) (by omega)]
    omega

theorem nextTimes_inBounds {G : Type} (R : RandomLib G) (hR : R.InRange) (n : Nat)
    (s : RandomSampleStrategy G) (hs : InBounds s) :
    ∃ s', RandomSampleStrategy.nextTimes R n s = some s' ∧ InBounds s' ∧
      s'.m_permutationSizes = s.m_permutationSizes := by
  induction n generalizing s with
  | zero => exact ⟨s, rfl, hs, rfl⟩
  | succ n ih =>
    obtain ⟨v, s1, h1, hb, hsz⟩ := next_inBounds R hR s hs
    obtain ⟨s2, h2, hb2, hsz2⟩ := ih s1 hb
    exact ⟨s2, by rw [nextTimes_succ, h1]; exact h2, hb2, by rw [hsz2, hsz]⟩

theorem initialize_inBounds {G X M : Type} (s : RandomSampleStrategy G) (reaction : X)
    (bbs : List (List M)) (hb : ∀ b ∈ bbs, 0 < b.length ∧ b.length ≤ 2147483648) :
    InBounds ( s.initialize reaction bbs) := by
  simp only [InBounds, getSizesFromBBs_eq_map, RandomSampleStrategy.initialize,
    RandomSampleStrategy.initializeStrategy, EnumerationStrategyBase.initialize, fill_resize,
    List.length_map, List.length_replicate, true_and, List.mem_map, forall_exists_index,
    and_imp, forall_apply_eq_imp_iff₂]
  refine ⟨hb, ?_⟩
  intro j x n hx hn
  rw [List.getElem?_map] at hn
  cases hbj : bbs[j]? with
  | none => simp [hbj] at hn
  | some b =>
    simp only [hbj, Option.map_some', Option.some.injEq] at hn
    have hx0 : x = 0 := by
      obtain ⟨_, hx1⟩ := List.getElem?_eq_some_iff.mp hx
      simpa using hx1.symm
    have := (hb b (List.getElem?_mem hbj)).1
    omega

/-- Positions stay within the sizes when every site has between 1 and `2 ^ 31` building
blocks: for a library that draws within the range of a distribution, after `initialize` and
any number `n` of calls of `next()` (the state that `skip(n)` reaches), the calls are defined,
the sizes are the lengths of the collections and every position is below its size. -/
theorem position_bounds_of_int_sizes {G X M : Type} (R : RandomLib G) (hR : R.InRange)
    (s : RandomSampleStrategy G) (reaction : X) (bbs : List (List M))
    (hb : ∀ b ∈ bbs, 0 < b.length ∧ b.length ≤ 2147483648) (n : Nat) :
    ∃ s', RandomSampleStrategy.nextTimes R n ( s.initialize reaction bbs) = some s' ∧
      s'.m_permutationSizes = bbs.map List.length ∧
      s'.m_permutation.length = bbs.length ∧
      ∀ j x k : Nat, s'.m_permutation[j]? = some x → s'.m_permutationSizes[j]? = some k → x < k := by
  obtain ⟨s', h1, ⟨_, hl, _, hpos⟩, hsz⟩ :=
    nextTimes_inBounds R hR n _ (initialize_inBounds s reaction bbs hb)
  have hsz' : s'.m_permutationSizes = bbs.map List.length := by
    rw [hsz]
    simp only [getSizesFromBBs_eq_map, RandomSampleStrategy.initialize,
      RandomSampleStrategy.initializeStrategy, EnumerationStrategyBase.initialize]
  exact ⟨s', h1, hsz', by rw [hl, hsz', List.length_map], hpos⟩

/-- The sizes `[4, 1, 7]`: after 10,000 calls of `next()` on `sampleStart` the three
positions are below 4, equal to 0 and below 7. -/
theorem position_bounds_sample :
    ∃ s', RandomSampleStrategy.nextTimes sampleLib 10000 sampleStart = some s' ∧
      ∃ v0 v1 v2, s'.m_permutation = [v0, v1, v2] ∧ v0 < 4 ∧ v1 = 0 ∧ v2 < 7 := by
  obtain ⟨s', h1, h2, h3, h4⟩ := position_bounds_of_int_sizes sampleLib sampleLib_inRange
    (RandomSampleStrategy.ctor sampleLib) () [[1, 2, 3, 4], [5], [1, 2, 3, 4, 5, 6, 7]]
    (by decide) 10000
  refine ⟨s', h1, ?_⟩
  simp only [List.map_cons, List.length_cons, List.length_nil, List.map_nil] at h2 h3
  match hp : s'.m_permutation, h3 with
  | [v0, v1, v2], _ =>
    refine ⟨v0, v1, v2, rfl, ?_, ?_, ?_⟩
    · exact h4 0 v0 4 (by rw [hp]; rfl) (by rw [h2]; rfl)
    · have := h4 1 v1 1 (by rw [hp]; rfl) (by rw [h2]; rfl)
      omega
    · exact h4 2 v2 7 (by rw [hp]; rfl) (by rw [h2]; rfl)

/-- C7 fails for a site with `2 ^ 32` building blocks: `initialize` builds for it the
distribution with lower bound 0 and upper bound -1, because `size - 1` is narrowed to a
32-bit `int`; the range of that distribution is empty, so no value drawn from it is bound
to lie in `[0, size)`. -/
theorem initialize_distribution_narrowed {G X M : Type} (s : RandomSampleStrategy G)
    (reaction : X) (m : M) :
    ( s.initialize reaction [List.replicate 4294967296 m]).m_permutationSizes = [4294967296] ∧
    ( s.initialize reaction [List.replicate 4294967296 m]).m_distributions
      = [{ min := 0, max := -1 }] ∧
    ¬ ∃ v : Int, (0 : Int) ≤ v ∧ v ≤ -1 := by
  refine ⟨?_, ?_, ?_⟩
  · simp only [getSizesFromBBs_eq_map, RandomSampleStrategy.initialize,
      RandomSampleStrategy.initializeStrategy, EnumerationStrategyBase.initialize,
      List.map_cons, List.map_nil, List.length_replicate]
  · simp only [getSizesFromBBs_eq_map, RandomSampleStrategy.initialize,
      RandomSampleStrategy.initializeStrategy, EnumerationStrategyBase.initialize,
      List.map_cons, List.map_nil, List.length_replicate]
    decide
  · rintro ⟨v, h1, h2⟩
    omega

/-! ## Loading unchecked state -/

/-- C11 (as amended): restoring a `RandomSampleStrategy` from a persisted state is never
rejected and nothing is clamped: `load` makes no bounds check, and the restored position
vector, size vector, cached total and processed counter are exactly the persisted ones, also
when some persisted `position[i] >= size[i]`. -/
theorem load_takes_persisted_state {G : Type} (R : RandomLib G) (t : RandomSampleStrategy G)
    (ar : Archive) :
    (RandomSampleStrategy.load R t ar).m_permutation = ar.base.m_permutation ∧
    (RandomSampleStrategy.load R t ar).m_permutationSizes = ar.base.m_permutationSizes ∧
    (RandomSampleStrategy.load R t ar).m_numPermutations = ar.base.m_numPermutations ∧
    (RandomSampleStrategy.load R t ar).m_numPermutationsProcessed
      = ar.m_numPermutationsProcessed :=
  ⟨rfl, rfl, rfl, rfl⟩

/-- C11 (as stated) fails: the persisted state with position `[5]` and sizes `[3]` is loaded
into a default-constructed strategy as it is; the restored position is still 5, which is
not below the size 3. -/
theorem load_accepts_position_out_of_range :
    sampleArchiveBadPosition.base.m_permutation = [5] ∧
    sampleArchiveBadPosition.base.m_permutationSizes = [3] ∧
    (RandomSampleStrategy.load sampleLib (RandomSampleStrategy.ctor sampleLib)
      sampleArchiveBadPosition).m_permutation = [5] ∧
    (RandomSampleStrategy.load sampleLib (RandomSampleStrategy.ctor sampleLib)
      sampleArchiveBadPosition).m_permutationSizes = [3] ∧
    ¬ (5 < 3) := by
  decide

/-- C13: `initialize(bbs)` resets progress: from any two prior states (in particular from a
used one and from a fresh one) the position, sizes, cached total, processed counter and
distributions after `initialize(bbs)` are the same, so they depend on `bbs` only; with the
generator set aside the state is the state of a fresh instance initialized with `bbs`; and
`initialize(bbs)` applied twice gives the state that one application gives. -/
theorem initialize_resets {G X X' M : Type} (R : RandomLib G) (s s' : RandomSampleStrategy G)
    (reaction : X) (reaction' : X') (bbs : List (List M)) :
    ( s.initialize reaction bbs).m_permutation = ( s'.initialize reaction' bbs).m_permutation ∧
    ( s.initialize reaction bbs).m_permutationSizes
      = ( s'.initialize reaction' bbs).m_permutationSizes ∧
    ( s.initialize reaction bbs).m_numPermutations
      = ( s'.initialize reaction' bbs).m_numPermutations ∧
    ( s.initialize reaction bbs).m_numPermutationsProcessed
      = ( s'.initialize reaction' bbs).m_numPermutationsProcessed ∧
    ( s.initialize reaction bbs).m_distributions
      = ( s'.initialize reaction' bbs).m_distributions ∧
    { ( s.initialize reaction bbs) with m_rng := R.init }
      = RandomSampleStrategy.initialize (RandomSampleStrategy.ctor R) reaction' bbs ∧
    RandomSampleStrategy.initialize ( s.initialize reaction bbs) reaction' bbs
      = s.initialize reaction bbs := by
  simp only [fill_resize, RandomSampleStrategy.initialize,
    RandomSampleStrategy.initializeStrategy, EnumerationStrategyBase.initialize,
    RandomSampleStrategy.ctor, and_self]

/-- C14: `initialize` does not touch the generator: after `initialize(bbs)` the generator is
the one of the prior state, and it is still that one after a second `initialize`. -/
theorem initialize_keeps_generator {G X X' M M' : Type} (s : RandomSampleStrategy G)
    (reaction : X) (bbs : List (List M)) (reaction' : X') (bbs' : List (List M')) :
    ( s.initialize reaction bbs).m_rng = s.m_rng ∧
    ( RandomSampleStrategy.initialize ( s.initialize reaction bbs) reaction' bbs').m_rng
      = s.m_rng :=
  ⟨rfl, rfl⟩

/-! ## Reading the position -/

/-- C16: `getPosition()` is a `const` method, a function of the state that changes nothing:
right after a call of `next()` that returned the tuple `v` it returns `v`, and after
`initialize` with no `next()` yet it returns the all-zero vector. -/
theorem getPosition_after_next {G X M : Type} (R : RandomLib G) (s s' : RandomSampleStrategy G)
    (v : RGROUPS) (reaction : X) (bbs : List (List M))
    (h : RandomSampleStrategy.next R s = some (v, s')) :
    s'.getPosition = v ∧
    RandomSampleStrategy.getPosition ( s.initialize reaction bbs)
      = List.replicate bbs.length 0 := by
  refine ⟨(next_frame R s s' v h).2.2.2.1, ?_⟩
  simp only [getSizesFromBBs_eq_map, RandomSampleStrategy.getPosition,
    RandomSampleStrategy.initialize, RandomSampleStrategy.initializeStrategy,
    EnumerationStrategyBase.initialize, fill_resize, List.length_map]

/-- C16 witness: `next()` on `sampleStart` returns `[3, 0, 5]` and leaves `sampleAfter`. -/
theorem getPosition_after_next_witness :
    RandomSampleStrategy.next sampleLib sampleStart = some ([3, 0, 5], sampleAfter) ∧
    sampleAfter.getPosition = [3, 0, 5] ∧
    RandomSampleStrategy.getPosition
        ( RandomSampleStrategy.initialize sampleStart () [[true], [false]])
      = List.replicate [[true], [false]].length 0 :=
  ⟨by rfl, getPosition_after_next sampleLib sampleStart sampleAfter [3, 0, 5] ()
    [[true], [false]] (by rfl)⟩

/-! ## Lengths -/

theorem reachable_sampleStart : Reachable sampleLib sampleStart :=
  Reachable.init (RandomSampleStrategy.ctor sampleLib) ()
    [[1, 2, 3, 4], [5], [1, 2, 3, 4, 5, 6, 7]] Reachable.ctor

/-- C18: in every state reachable from a default-constructed `RandomSampleStrategy` by
`initialize`, `next`, `skip`, `Clone` and save-then-load, the position vector is as long as
the size vector. -/
theorem reachable_length_eq {G : Type} (R : RandomLib G) (s : RandomSampleStrategy G)
    (h : Reachable R s) : s.m_permutation.length = s.m_permutationSizes.length :=
  (reachable_invariant R s h).2

/-- C18 witness: the clone of the state obtained by loading into `sampleStart` the archive
saved from `sampleAfter`. -/
theorem reachable_length_eq_witness :
    Reachable sampleLib
      (RandomSampleStrategy.Clone
        (RandomSampleStrategy.load sampleLib sampleStart
          (RandomSampleStrategy.save sampleLib sampleAfter))) ∧
    (RandomSampleStrategy.Clone
        (RandomSampleStrategy.load sampleLib sampleStart
          (RandomSampleStrategy.save sampleLib sampleAfter))).m_permutation.length
      = (RandomSampleStrategy.Clone
        (RandomSampleStrategy.load sampleLib sampleStart
          (RandomSampleStrategy.save sampleLib sampleAfter))).m_permutationSizes.length :=
  ⟨Reachable.Clone _ (Reachable.load _ _ reachable_sampleAfter reachable_sampleStart),
    reachable_length_eq sampleLib _
      (Reachable.Clone _ (Reachable.load _ _ reachable_sampleAfter reachable_sampleStart))⟩

/-- C19: `getSizesFromBBs` returns a vector as long as `bbs` whose `i`-th entry is the number
of elements of `bbs[i]`, and vectors of vectors with the same inner lengths, whatever their
contents and element type, give the same result. -/
theorem getSizesFromBBs_spec {T T' : Type} (bbs : List (List T)) (bbs' : List (List T'))
    (h : bbs'.map List.length = bbs.map List.length) :
    (getSizesFromBBs bbs).length = bbs.length ∧
    (∀ i : Nat, (getSizesFromBBs bbs)[i]? = (bbs[i]?).map List.length) ∧
    getSizesFromBBs bbs' = getSizesFromBBs bbs := by
  refine ⟨?_, ?_, ?_⟩
  · rw [getSizesFromBBs_eq_map, List.length_map]
  · intro i
    rw [getSizesFromBBs_eq_map, List.getElem?_map]
  · rw [getSizesFromBBs_eq_map, getSizesFromBBs_eq_map, h]

/-- C19 witness: three collections of 2, 0 and 1 elements, once of numbers and once of
Booleans. -/
theorem getSizesFromBBs_spec_witness :
    [[true, false], [], [true]].map List.length = [[7, 8], [], [9]].map List.length ∧
    (getSizesFromBBs [[7, 8], [], [9]]).length = 3 ∧
    getSizesFromBBs [[true, false], [], [true]] = getSizesFromBBs [[7, 8], [], [9]] ∧
    getSizesFromBBs [[7, 8], [], [9]] = [2, 0, 1] :=
  ⟨by decide,
    (getSizesFromBBs_spec [[7, 8], [], [9]] [[true, false], [], [true]] (by decide)).1,
    (getSizesFromBBs_spec [[7, 8], [], [9]] [[true, false], [], [true]] (by decide)).2.2,
    by decide⟩

/-! ## The processed counter -/

theorem nextTimes_add {G : Type} (R : RandomLib G) (a b : Nat) (s : RandomSampleStrategy G) :
    RandomSampleStrategy.nextTimes R (a + b) s
      = (RandomSampleStrategy.nextTimes R a s).bind (RandomSampleStrategy.nextTimes R b) := by
  unfold RandomSampleStrategy.nextTimes
  rw [Nat.add_comm, Function.iterate_add_apply]
  cases (RandomSampleStrategy.callNext R)^[a] (some s) with
  | none => exact iterate_callNext_none R b
  | some s1 => rfl

theorem runCalls_eq_nextTimes {G : Type} (R : RandomLib G) (calls : List Call)
    (s : RandomSampleStrategy G) :
    runCalls R calls s = RandomSampleStrategy.nextTimes R (calls.map Call.steps).sum s := by
  induction calls generalizing s with
  | nil => rfl
  | cons c cs ih =>
    cases c with
    | next =>
      simp only [runCalls, List.map_cons, List.sum_cons, Call.steps]
      rw [Nat.add_comm, nextTimes_succ]
      cases RandomSampleStrategy.next R s with
      | none => rfl
      | some r => exact ih r.2
    | skip k =>
      simp only [runCalls, List.map_cons, List.sum_cons, Call.steps]
      rw [nextTimes_add, skip_eq_nextTimes]
      cases RandomSampleStrategy.nextTimes R k s with
      | none => rfl
      | some s1 => exact ih s1

/-- The counter after `n` calls of `next()` is the `size_t` sum of the counter before and
`n`. -/
theorem nextTimes_counter {G : Type} (R : RandomLib G) (n : Nat)
    (s s' : RandomSampleStrategy G) (hc : s.m_numPermutationsProcessed < SIZE_MOD)
    (h : RandomSampleStrategy.nextTimes R n s = some s') :
    s'.m_numPermutationsProcessed = (s.m_numPermutationsProcessed + n) % SIZE_MOD := by
  induction n generalizing s with
  | zero =>
    simp only [RandomSampleStrategy.nextTimes, Function.iterate_zero, id_eq,
      Option.some.injEq] at h
    subst h
    rw [Nat.add_zero, Nat.mod_eq_of_lt hc]
  | succ n ih =>
    rw [nextTimes_succ] at h
    cases hn : RandomSampleStrategy.next R s with
    | none => simp [hn] at h
    | some r =>
      obtain ⟨v, s1⟩ := r
      simp only [hn] at h
      have f6 := (next_frame R s s1 v hn).2.2.2.2.2
      have hlt : s1.m_numPermutationsProcessed < SIZE_MOD := by
        rw [f6]; exact Nat.mod_lt _ (by decide)
      rw [ih s1 hlt h, f6]
      simp only [SIZE_MOD]
      omega

/-- C15: `initialize` sets the processed counter to 0, each `next()` adds 1 to it in `size_t`
(exactly 1 unless the counter is at the largest `size_t` value), and after `initialize`
followed by any sequence of `next()` and `skip(k)` calls totalling `n` steps, where `n` is a
`size_t` value, all the calls return and `getPermutationIdx()` is `n`. -/
theorem getPermutationIdx_counts {G X M : Type} (R : RandomLib G) (s : RandomSampleStrategy G)
    (reaction : X) (bbs : List (List M)) (calls : List Call)
    (h : (calls.map Call.steps).sum < SIZE_MOD) :
    RandomSampleStrategy.getPermutationIdx ( s.initialize reaction bbs) = 0 ∧
    (∀ s1 : RandomSampleStrategy G, s1.m_permutation.length ≤ s1.m_distributions.length →
      ∃ v s2, RandomSampleStrategy.next R s1 = some (v, s2) ∧
        s2.getPermutationIdx = (s1.getPermutationIdx + 1) % SIZE_MOD ∧
        (s1.getPermutationIdx < SIZE_MAX → s2.getPermutationIdx = s1.getPermutationIdx + 1)) ∧
    ∃ s', runCalls R calls ( s.initialize reaction bbs) = some s' ∧
      s'.getPermutationIdx = (calls.map Call.steps).sum := by
  refine ⟨rfl, ?_, ?_⟩
  · intro s1 h1
    obtain ⟨v, s2, hn⟩ := next_isSome R s1 h1
    have f6 := (next_frame R s1 s2 v hn).2.2.2.2.2
    refine ⟨v, s2, hn, f6, ?_⟩
    intro hlt
    simp only [RandomSampleStrategy.getPermutationIdx, SIZE_MAX, SIZE_MOD] at hlt ⊢
    rw [f6]
    simp only [SIZE_MOD]
    omega
  · have hreach : ( s.initialize reaction bbs).m_permutation.length
        ≤ ( s.initialize reaction bbs).m_distributions.length := by
      simp [fill_resize, pushDistributions_eq, RandomSampleStrategy.initialize,
        RandomSampleStrategy.initializeStrategy, EnumerationStrategyBase.initialize]
    obtain ⟨s', hs', _⟩ := nextTimes_isSome R (calls.map Call.steps).sum _ hreach
    refine ⟨s', by rw [runCalls_eq_nextTimes, hs'], ?_⟩
    have hz : ( s.initialize reaction bbs).m_numPermutationsProcessed < SIZE_MOD := by
      show 0 < SIZE_MOD
      decide
    have hc := nextTimes_counter R _ _ s' hz hs'
    simp only [RandomSampleStrategy.getPermutationIdx]
    rw [hc]
    have h0 : ( s.initialize reaction bbs).m_numPermutationsProcessed = 0 := rfl
    rw [h0, Nat.zero_add, Nat.mod_eq_of_lt h]

/-- C15 witness: `next()`, `skip(3)`, `next()`, `skip(0)` after initializing `sampleAfter`
again: 5 steps. -/
theorem getPermutationIdx_counts_witness :
    ([Call.next, Call.skip 3, Call.next, Call.skip 0].map Call.steps).sum < SIZE_MOD ∧
    ∃ s', runCalls sampleLib [Call.next, Call.skip 3, Call.next, Call.skip 0]
          ( RandomSampleStrategy.initialize sampleAfter () [[true, false], [true]]) = some s' ∧
      s'.getPermutationIdx = 5 :=
  ⟨by decide,
    (getPermutationIdx_counts sampleLib sampleAfter () [[true, false], [true]]
      [Call.next, Call.skip 3, Call.next, Call.skip 0] (by decide)).2.2⟩

/-! ## What `next` and `skip` leave alone -/

/-- C17: in a state with at least as many distributions as positions, `next()` and `skip(n)`
return and leave the size vector, the cached total returned by `getNumPermutations()` and the
distributions as they were (they change the position, the processed counter and the
generator only); after `initialize` and `skip(n)`, `getNumPermutations()` is still
`computeNumProducts` of the sizes. -/
theorem next_skip_frame {G X M : Type} (R : RandomLib G) (s : RandomSampleStrategy G)
    (n : Nat) (reaction : X) (bbs : List (List M))
    (h : s.m_permutation.length ≤ s.m_distributions.length) :
    (∃ v s1, RandomSampleStrategy.next R s = some (v, s1) ∧
      s1.m_permutationSizes = s.m_permutationSizes ∧
      s1.getNumPermutations = s.getNumPermutations ∧
      s1.m_distributions = s.m_distributions) ∧
    (∃ s2, RandomSampleStrategy.skip R n s = some (true, s2) ∧
      s2.m_permutationSizes = s.m_permutationSizes ∧
      s2.getNumPermutations = s.getNumPermutations ∧
      s2.m_distributions = s.m_distributions) ∧
    ∃ s3, RandomSampleStrategy.skip R n ( s.initialize reaction bbs) = some (true, s3) ∧
      s3.m_permutationSizes = bbs.map List.length ∧
      s3.getNumPermutations = computeNumProducts s3.m_permutationSizes := by
  refine ⟨?_, ?_, ?_⟩
  · obtain ⟨v, s1, hn⟩ := next_isSome R s h
    obtain ⟨f1, f2, f3, _⟩ := next_frame R s s1 v hn
    exact ⟨v, s1, hn, f1, f2, f3⟩
  · obtain ⟨s2, hs2, _, g2, g3, g4⟩ := nextTimes_isSome R n s h
    exact ⟨s2, by rw [skip_eq_nextTimes, hs2]; rfl, g3, g4, g2⟩
  · have hreach : ( s.initialize reaction bbs).m_permutation.length
        ≤ ( s.initialize reaction bbs).m_distributions.length := by
      simp [fill_resize, pushDistributions_eq, RandomSampleStrategy.initialize,
        RandomSampleStrategy.initializeStrategy, EnumerationStrategyBase.initialize]
    obtain ⟨s3, hs3, _, _, g3, g4⟩ := nextTimes_isSome R n _ hreach
    have hsz : s3.m_permutationSizes = bbs.map List.length := by
      rw [g3]
      simp only [getSizesFromBBs_eq_map, RandomSampleStrategy.initialize,
        RandomSampleStrategy.initializeStrategy, EnumerationStrategyBase.initialize]
    refine ⟨s3, by rw [skip_eq_nextTimes, hs3]; rfl, hsz, ?_⟩
    simp only [RandomSampleStrategy.getNumPermutations]
    rw [g4, hsz]
    simp only [getSizesFromBBs_eq_map, RandomSampleStrategy.initialize,
      RandomSampleStrategy.initializeStrategy, EnumerationStrategyBase.initialize]

/-- C17 witness: `next()` and `skip(4)` on `sampleAfter`. -/
theorem next_skip_frame_witness :
    sampleAfter.m_permutation.length ≤ sampleAfter.m_distributions.length ∧
    (∃ v s1, RandomSampleStrategy.next sampleLib sampleAfter = some (v, s1) ∧
      s1.m_permutationSizes = sampleAfter.m_permutationSizes ∧
      s1.getNumPermutations = sampleAfter.getNumPermutations ∧
      s1.m_distributions = sampleAfter.m_distributions) ∧
    (∃ s2, RandomSampleStrategy.skip sampleLib 4 sampleAfter = some (true, s2) ∧
      s2.m_permutationSizes = sampleAfter.m_permutationSizes ∧
      s2.getNumPermutations = sampleAfter.getNumPermutations ∧
      s2.m_distributions = sampleAfter.m_distributions) :=
  ⟨by decide,
    (next_skip_frame sampleLib sampleAfter 4 () [[true]] (by decide)).1,
    (next_skip_frame sampleLib sampleAfter 4 () [[true]] (by decide)).2.1⟩

/-! ## `next` as a function of the sizes and the generator -/

theorem take_succ_set (l : List Nat) (i a : Nat) (h : i < l.length) :
    (l.set i a).take (i + 1) = l.take i ++ [a] := by
  induction l generalizing i with
  | nil => simp at h
  | cons x xs ih =>
    cases i with
    | zero => simp
    | succ j =>
      simp only [List.length_cons, Nat.add_lt_add_iff_right] at h
      simp [ih j h]

/-- The loop of `next` from index `i` keeps the first `i` positions and replaces the others
by the values drawn, in order, from the distributions of index `i` onwards. -/
theorem next_loop_eq_drawInOrder {G : Type} (R : RandomLib G) (dists : List Dist) (k i : Nat)
    (perm : RGROUPS) (g : G) (hl : perm.length = dists.length) (hk : i + k = perm.length) :
    RandomSampleStrategy.next.loop R dists k i perm g
      = some (perm.take i ++ (drawInOrder R (dists.drop i) g).1,
          (drawInOrder R (dists.drop i) g).2) := by
  induction k generalizing i perm g with
  | zero =>
    have hi : i = perm.length := by omega
    subst hi
    rw [hl, List.drop_length, ← hl, List.take_length]
    simp [RandomSampleStrategy.next.loop, drawInOrder]
  | succ k ih =>
    have hi : i < dists.length := by omega
    have hip : i < perm.length := by omega
    simp only [RandomSampleStrategy.next.loop, List.getElem?_eq_getElem hi]
    rw [ih (i + 1) _ _ (by rw [List.length_set]; exact hl) (by rw [List.length_set]; omega),
      take_succ_set perm i _ hip, List.drop_eq_getElem_cons hi]
    simp [drawInOrder]

/-- In a reachable state `next()` returns the tuple drawn in dimension order from the
distributions built from the sizes, starting from the current generator. -/
theorem next_eq_drawInOrder {G : Type} (R : RandomLib G) (s : RandomSampleStrategy G)
    (h : Reachable R s) :
    ∃ s', RandomSampleStrategy.next R s
        = some ((drawInOrder R (pushDistributions s.m_permutationSizes []) s.m_rng).1, s') ∧
      s'.m_rng = (drawInOrder R (pushDistributions s.m_permutationSizes []) s.m_rng).2 := by
  obtain ⟨hd, hlen⟩ := reachable_invariant R s h
  have hl : s.m_permutation.length = s.m_distributions.length := by
    rw [hd, pushDistributions_eq, hlen]; simp
  have hloop := next_loop_eq_drawInOrder R s.m_distributions s.m_permutation.length 0
    s.m_permutation s.m_rng hl (by omega)
  simp only [List.take_zero, List.nil_append, List.drop_zero] at hloop
  unfold RandomSampleStrategy.next
  rw [hloop, ← hd]
  exact ⟨_, rfl, rfl⟩

/-- The loop of `next` reads only the distributions of index below the number of
positions. -/
theorem next_loop_take {G : Type} (R : RandomLib G) (dists : List Dist) (n k i : Nat)
    (perm : RGROUPS) (g : G) (h : i + k ≤ n) :
    RandomSampleStrategy.next.loop R dists k i perm g
      = RandomSampleStrategy.next.loop R (dists.take n) k i perm g := by
  induction k generalizing i perm g with
  | zero => rfl
  | succ k ih =>
    have hi : i < n := by omega
    simp only [RandomSampleStrategy.next.loop, List.getElem?_take, if_pos hi]
    cases dists[i]? with
    | none => rfl
    | some d => exact ih _ _ _ (by omega)

/-- In a state with at least as many distributions as positions, `next()` returns the tuple
drawn in dimension order from the first distributions, one per position, starting from the
current generator. -/
theorem next_eq_drawInOrder_take {G : Type} (R : RandomLib G) (s : RandomSampleStrategy G)
    (h : s.m_permutation.length ≤ s.m_distributions.length) :
    ∃ s', RandomSampleStrategy.next R s
        = some ((drawInOrder R (s.m_distributions.take s.m_permutation.length) s.m_rng).1, s') ∧
      s'.m_rng = (drawInOrder R (s.m_distributions.take s.m_permutation.length) s.m_rng).2 := by
  have hl : s.m_permutation.length = (s.m_distributions.take s.m_permutation.length).length := by
    rw [List.length_take]; omega
  have hloop := next_loop_eq_drawInOrder R (s.m_distributions.take s.m_permutation.length)
    s.m_permutation.length 0 s.m_permutation s.m_rng hl (by omega)
  simp only [List.take_zero, List.nil_append, List.drop_zero] at hloop
  unfold RandomSampleStrategy.next
  rw [next_loop_take R s.m_distributions s.m_permutation.length s.m_permutation.length 0
    s.m_permutation s.m_rng (by omega), hloop]
  exact ⟨_, rfl, rfl⟩

/-- C20 (as amended): `next()` is a function of the size vector, the generator and the number
of positions: two states whose distributions are the ones built from their sizes, with equal
sizes, equal generators and position vectors of the same length, at most the number of
sizes, return the same tuple from `next()` and are left with the same generator, whatever
their positions and processed counters; the tuple is the one obtained by drawing once per
position in the order 0, 1, ..., k-1 from the distributions built from the sizes, each draw
continuing from the generator left by the previous one. -/
theorem next_deterministic {G : Type} (R : RandomLib G) (s1 s2 : RandomSampleStrategy G)
    (hd1 : s1.m_distributions = pushDistributions s1.m_permutationSizes [])
    (hd2 : s2.m_distributions = pushDistributions s2.m_permutationSizes [])
    (hs : s1.m_permutationSizes = s2.m_permutationSizes) (hg : s1.m_rng = s2.m_rng)
    (hl : s1.m_permutation.length = s2.m_permutation.length)
    (hb : s1.m_permutation.length ≤ s1.m_permutationSizes.length) :
    ∃ v a b, RandomSampleStrategy.next R s1 = some (v, a) ∧
      RandomSampleStrategy.next R s2 = some (v, b) ∧
      a.m_rng = b.m_rng ∧
      v = (drawInOrder R
        ((pushDistributions s1.m_permutationSizes []).take s1.m_permutation.length)
        s1.m_rng).1 ∧
      a.m_rng = (drawInOrder R
        ((pushDistributions s1.m_permutationSizes []).take s1.m_permutation.length)
        s1.m_rng).2 := by
  have hlen : (pushDistributions s1.m_permutationSizes []).length
      = s1.m_permutationSizes.length := by
    rw [pushDistributions_eq]; simp
  obtain ⟨a, ha, hag⟩ := next_eq_drawInOrder_take R s1 (by rw [hd1, hlen]; exact hb)
  obtain ⟨b, hb2, hbg⟩ := next_eq_drawInOrder_take R s2
    (by rw [hd2, ← hs, hlen, ← hl]; exact hb)
  rw [hd1] at ha hag
  rw [hd2, ← hs, ← hg, ← hl] at hb2 hbg
  exact ⟨_, a, b, ha, hb2, by rw [hag, hbg], rfl, hag⟩

/-- C20 witness: `sampleAfter` (position `[3, 0, 5]`, counter 1) and `sampleOtherPosition`
(position `[9, 9, 9]`, counter 77) have the same sizes, distributions and generator, and
`next()` returns `[1, 0, 0]` on both. -/
theorem next_deterministic_witness :
    sampleAfter.m_distributions = pushDistributions sampleAfter.m_permutationSizes [] ∧
    sampleOtherPosition.m_distributions
      = pushDistributions sampleOtherPosition.m_permutationSizes [] ∧
    sampleAfter.m_permutationSizes = sampleOtherPosition.m_permutationSizes ∧
    sampleAfter.m_rng = sampleOtherPosition.m_rng ∧
    sampleAfter.m_permutation.length = sampleOtherPosition.m_permutation.length ∧
    sampleAfter.m_permutation.length ≤ sampleAfter.m_permutationSizes.length ∧
    sampleAfter.m_permutation ≠ sampleOtherPosition.m_permutation ∧
    (RandomSampleStrategy.next sampleLib sampleAfter).map Prod.fst = some [1, 0, 0] ∧
    ∃ v a b, RandomSampleStrategy.next sampleLib sampleAfter = some (v, a) ∧
      RandomSampleStrategy.next sampleLib sampleOtherPosition = some (v, b) ∧
      a.m_rng = b.m_rng ∧
      v = (drawInOrder sampleLib
        ((pushDistributions sampleAfter.m_permutationSizes []).take
          sampleAfter.m_permutation.length)
        sampleAfter.m_rng).1 ∧
      a.m_rng = (drawInOrder sampleLib
        ((pushDistributions sampleAfter.m_permutationSizes []).take
          sampleAfter.m_permutation.length)
        sampleAfter.m_rng).2 :=
  ⟨by decide, by decide, by decide, by decide, by decide, by decide, by decide, by rfl,
    next_deterministic sampleLib sampleAfter sampleOtherPosition
      (by decide) (by decide) (by decide) (by decide) (by decide) (by decide)⟩

/-- C20 (as stated) fails: the two states obtained by loading archives with the sizes `[4, 7]`
and the generator 1, one with one position and one with two, have equal sizes and equal
generators, and `next()` returns `[3]` on the first and `[3, 0]` on the second. -/
theorem next_depends_on_position_count :
    (RandomSampleStrategy.load sampleLib (RandomSampleStrategy.ctor sampleLib)
        sampleArchiveOnePosition).m_permutationSizes
      = (RandomSampleStrategy.load sampleLib (RandomSampleStrategy.ctor sampleLib)
        sampleArchiveTwoPositions).m_permutationSizes ∧
    (RandomSampleStrategy.load sampleLib (RandomSampleStrategy.ctor sampleLib)
        sampleArchiveOnePosition).m_rng
      = (RandomSampleStrategy.load sampleLib (RandomSampleStrategy.ctor sampleLib)
        sampleArchiveTwoPositions).m_rng ∧
    (RandomSampleStrategy.next sampleLib
        (RandomSampleStrategy.load sampleLib (RandomSampleStrategy.ctor sampleLib)
          sampleArchiveOnePosition)).map Prod.fst = some [3] ∧
    (RandomSampleStrategy.next sampleLib
        (RandomSampleStrategy.load sampleLib (RandomSampleStrategy.ctor sampleLib)
          sampleArchiveTwoPositions)).map Prod.fst = some [3, 0] :=
  ⟨by decide, by decide, by rfl, by rfl⟩

/-! ## The distributions -/

/-- For sizes between 1 and `2 ^ 31` the loop builds one distribution per size, in order, with
bounds 0 and `size - 1`. -/
theorem pushDistributions_of_int_sizes (sizes : List Nat)
    (h : ∀ n ∈ sizes, 0 < n ∧ n ≤ 2147483648) :
    pushDistributions sizes [] = sizes.map (fun n => { min := 0, max := (n : Int) - 1 }) := by
  rw [pushDistributions_eq, List.nil_append]
  apply List.map_congr_left
  intro n hn
  rw [toInt32_decSizeT_of_le n (h n hn).1 (h n hn).2]

/-- C21 fails for a site with `2 ^ 31 + 1` building blocks: `initialize` and `load` build for
it the distribution with lower bound 0 and upper bound `-2 ^ 31`, not `size - 1 = 2 ^ 31`,
because `size - 1` is narrowed to a 32-bit `int`. -/
theorem distribution_upper_bound_wraps {G X M : Type} (R : RandomLib G)
    (s t : RandomSampleStrategy G) (reaction : X) (m : M) (position : RGROUPS) (total idx : Nat)
    (text : String) :
    ( s.initialize reaction [List.replicate 2147483649 m]).m_permutationSizes = [2147483649] ∧
    ( s.initialize reaction [List.replicate 2147483649 m]).m_distributions
      = [{ min := 0, max := -2147483648 }] ∧
    (RandomSampleStrategy.load R t
      { base := { m_permutation := position, m_permutationSizes := [2147483649],
                  m_numPermutations := total }
        m_numPermutationsProcessed := idx
        s := text }).m_distributions = [{ min := 0, max := -2147483648 }] ∧
    (-2147483648 : Int) ≠ ((2147483649 : Nat) : Int) - 1 := by
  refine ⟨?_, ?_, ?_, by decide⟩
  · simp only [getSizesFromBBs_eq_map, RandomSampleStrategy.initialize,
      RandomSampleStrategy.initializeStrategy, EnumerationStrategyBase.initialize,
      List.map_cons, List.map_nil, List.length_replicate]
  · simp only [getSizesFromBBs_eq_map, RandomSampleStrategy.initialize,
      RandomSampleStrategy.initializeStrategy, EnumerationStrategyBase.initialize,
      List.map_cons, List.map_nil, List.length_replicate]
    decide
  · simp only [RandomSampleStrategy.load]
    decide

/-- C22: in every state reachable from a default-constructed `RandomSampleStrategy` by
`initialize`, `next`, `skip`, `Clone` and save-then-load, there are exactly as many
distributions as positions, so `m_distributions[i]` exists for every `i` below the number of
positions and `next()` is defined. -/
theorem reachable_distributions_cover {G : Type} (R : RandomLib G) (s : RandomSampleStrategy G)
    (h : Reachable R s) :
    s.m_distributions.length = s.m_permutation.length ∧
    (∀ i : Nat, i < s.m_permutation.length → ∃ d, s.m_distributions[i]? = some d) ∧
    ∃ v s', RandomSampleStrategy.next R s = some (v, s') := by
  obtain ⟨hd, hlen⟩ := reachable_invariant R s h
  have hl : s.m_distributions.length = s.m_permutation.length := by
    rw [hd, pushDistributions_eq, hlen]; simp
  refine ⟨hl, ?_, next_isSome R s (by omega)⟩
  intro i hi
  exact ⟨s.m_distributions[i], List.getElem?_eq_getElem (by omega)⟩

/-- C22 witness: the state obtained from `sampleAfter` by `skip(2)`. -/
theorem reachable_distributions_cover_witness :
    (∃ s, RandomSampleStrategy.skip sampleLib 2 sampleAfter = some (true, s) ∧
      Reachable sampleLib s ∧
      s.m_distributions.length = s.m_permutation.length ∧
      ∃ v s', RandomSampleStrategy.next sampleLib s = some (v, s')) := by
  obtain ⟨s, hs⟩ : ∃ s, RandomSampleStrategy.skip sampleLib 2 sampleAfter = some (true, s) := by
    obtain ⟨s, hs, _⟩ := nextTimes_isSome sampleLib 2 sampleAfter (by decide)
    exact ⟨s, by rw [skip_eq_nextTimes, hs]; rfl⟩
  have hr : Reachable sampleLib s := Reachable.skip sampleAfter 2 true s reachable_sampleAfter hs
  exact ⟨s, hs, hr, (reachable_distributions_cover sampleLib s hr).1,
    (reachable_distributions_cover sampleLib s hr).2.2⟩

/-- C23: a default-constructed `RandomSampleStrategy` has empty position and size vectors, no
distributions, processed counter 0 and cached total 0, whereas `initialize` with no
collections caches 1; `next()` on it returns the empty tuple, leaves the generator as it was
and sets the counter to 1. -/
theorem ctor_state {G X M : Type} (R : RandomLib G) (reaction : X) :
    (RandomSampleStrategy.ctor R).m_permutation = [] ∧
    (RandomSampleStrategy.ctor R).m_permutationSizes = [] ∧
    (RandomSampleStrategy.ctor R).m_distributions = [] ∧
    (RandomSampleStrategy.ctor R).getPermutationIdx = 0 ∧
    (RandomSampleStrategy.ctor R).getNumPermutations = 0 ∧
    RandomSampleStrategy.getNumPermutations
      ( RandomSampleStrategy.initialize (RandomSampleStrategy.ctor R) reaction
        ([] : List (List M))) = 1 ∧
    RandomSampleStrategy.next R (RandomSampleStrategy.ctor R)
      = some ([], { RandomSampleStrategy.ctor R with m_numPermutationsProcessed := 1 }) ∧
    ({ RandomSampleStrategy.ctor R with m_numPermutationsProcessed := 1 } :
      RandomSampleStrategy G).m_rng = R.init := by
  refine ⟨rfl, rfl, rfl, rfl, rfl, ?_, rfl, rfl⟩
  simp only [RandomSampleStrategy.getNumPermutations, RandomSampleStrategy.initialize,
    RandomSampleStrategy.initializeStrategy, EnumerationStrategyBase.initialize,
    getSizesFromBBs, getSizesFromBBs.loop]
  decide

end RDKit

namespace SmilesParseOps

/-! ## `read_text_to` -/

theorem dropWhile_head_false (p : Char → Bool) (l : List Char) (c : Char) (cs : List Char)
    (h : l.dropWhile p = c :: cs) : p c = false := by
  induction l with
  | nil => simp at h
  | cons x xs ih =>
    by_cases hx : p x = true
    · simp only [List.dropWhile_cons, hx, if_true] at h
      exact ih h
    · simp only [List.dropWhile_cons, hx] at h
      simp only [Bool.false_eq_true, if_false, List.cons.injEq] at h
      rw [← h.1]
      simpa using hx

theorem read_text_to_loop_eq (sep blockend : Char) (first : Iter) :
    read_text_to.loop sep blockend first
      = first.dropWhile (fun c => decide (c ≠ sep ∧ c ≠ blockend)) := by
  induction first with
  | nil => rfl
  | cons c cs ih =>
    by_cases h : c ≠ sep ∧ c ≠ blockend
    · simp only [read_text_to.loop, if_pos h, ih, List.dropWhile_cons, decide_eq_true h, if_true]
    · simp only [read_text_to.loop, if_neg h, List.dropWhile_cons, decide_eq_false h]
      rfl

theorem between_dropWhile (p : Char → Bool) (first : Iter) :
    between first (first.dropWhile p) = first.takeWhile p := by
  unfold between
  have h := List.takeWhile_append_dropWhile p first
  have hl : first.length - (first.dropWhile p).length = (first.takeWhile p).length := by
    have := congrArg List.length h
    rw [List.length_append] at this
    omega
  rw [hl]
  have e : (first.takeWhile p ++ first.dropWhile p).take (first.takeWhile p).length
      = first.takeWhile p := List.take_left' rfl
  rw [h] at e
  exact e

theorem read_text_to_eq (first : Iter) (sep blockend : Char) :
    read_text_to first sep blockend
      = (first.takeWhile (fun c => decide (c ≠ sep ∧ c ≠ blockend)),
         first.dropWhile (fun c => decide (c ≠ sep ∧ c ≠ blockend))) := by
  simp only [read_text_to, read_text_to_loop_eq, between_dropWhile]

/-- C28: `read_text_to` returns a text that contains neither the separator nor the block-end
character, leaves the iterator at the end of the input or at a character that is one of the
two, the text followed by the unconsumed remainder is the original remaining input, and no
longer beginning of the input is free of both characters. -/
theorem read_text_to_spec (first : Iter) (sep blockend : Char) :
    (read_text_to first sep blockend).1 ++ (read_text_to first sep blockend).2 = first ∧
    (∀ c ∈ (read_text_to first sep blockend).1, c ≠ sep ∧ c ≠ blockend) ∧
    ((read_text_to first sep blockend).2 = [] ∨
      ∃ c cs, (read_text_to first sep blockend).2 = c :: cs ∧ (c = sep ∨ c = blockend)) ∧
    (∀ n : Nat, (∀ c ∈ first.take n, c ≠ sep ∧ c ≠ blockend) →
      (first.take n).length ≤ (read_text_to first sep blockend).1.length) := by
  rw [read_text_to_eq]
  have happ := List.takeWhile_append_dropWhile (fun c => decide (c ≠ sep ∧ c ≠ blockend)) first
  have hrest : first.dropWhile (fun c => decide (c ≠ sep ∧ c ≠ blockend)) = [] ∨
      ∃ c cs, first.dropWhile (fun c => decide (c ≠ sep ∧ c ≠ blockend)) = c :: cs ∧
        (c = sep ∨ c = blockend) := by
    cases hd : first.dropWhile (fun c => decide (c ≠ sep ∧ c ≠ blockend)) with
    | nil => exact Or.inl rfl
    | cons c cs =>
      refine Or.inr ⟨c, cs, rfl, ?_⟩
      have hh := dropWhile_head_false _ first c cs hd
      have hh' : ¬c = sep → c = blockend := by simpa using hh
      rcases Classical.em (c = sep) with h1 | h1
      · exact Or.inl h1
      · exact Or.inr (hh' h1)
  refine ⟨happ, ?_, hrest, ?_⟩
  · intro c hc
    have := List.mem_takeWhile_imp hc
    simpa using this
  · intro n hn
    simp only
    by_contra hlt
    rw [not_le] at hlt
    rcases hrest with hnil | ⟨c, cs, hcs, hc⟩
    · rw [hnil, List.append_nil] at happ
      rw [happ, List.length_take] at hlt
      omega
    · have hmem : c ∈ first.take n := by
        rw [← happ, hcs, List.take_append_eq_append_take]
        apply List.mem_append_right
        have hpos : 0 < n - (first.takeWhile (fun c => decide (c ≠ sep ∧ c ≠ blockend))).length := by
          have := List.length_take_le n first
          rw [List.length_take] at hlt
          omega
        obtain ⟨k, hk⟩ := Nat.exists_eq_succ_of_ne_zero (Nat.pos_iff_ne_zero.mp hpos)
        rw [hk, List.take_succ_cons]
        exact List.mem_cons_self _ _
      have := hn c hmem
      rcases hc with h | h
      · exact this.1 h
      · exact this.2 h

/-! ## `read_int` -/

theorem read_int_loop_eq (num : List Char) (first : Iter) :
    read_int.loop num first = (num ++ first.takeWhile isDigit, first.dropWhile isDigit) := by
  induction first generalizing num with
  | nil => simp [read_int.loop]
  | cons c cs ih =>
    by_cases h : isDigit c = true
    · simp [read_int.loop, h, ih]
    · simp [read_int.loop, h]

theorem foldl_digits (run : List Char) (acc : Nat) :
    run.foldl (fun acc c => acc * 10 + (c.toNat - 48)) acc
      = acc * 10 ^ run.length + decimalValue run := by
  induction run generalizing acc with
  | nil => simp [decimalValue]
  | cons c cs ih =>
    simp only [List.foldl_cons, ih, List.length_cons, decimalValue]
    ring

theorem lexical_cast_uint_eq (run : List Char) (h : decimalValue run < 2 ^ 32) :
    lexical_cast_uint run = some (decimalValue run) := by
  simp only [lexical_cast_uint, foldl_digits, Nat.zero_mul, Nat.zero_add, if_pos h]

theorem read_int_of_no_digit (first : Iter) (res : Nat) (h : first.takeWhile isDigit = []) :
    read_int first res = Run.ret (false, first, res) := by
  have hd : first.dropWhile isDigit = first := by
    have := List.takeWhile_append_dropWhile isDigit first
    rw [h, List.nil_append] at this
    exact this
  simp only [read_int, read_int_loop_eq, h, List.nil_append, hd, if_true]

theorem read_int_of_digits (first : Iter) (res : Nat) (h : first.takeWhile isDigit ≠ [])
    (hv : decimalValue (first.takeWhile isDigit) < 2 ^ 32) :
    read_int first res
      = Run.ret (true, first.dropWhile isDigit, decimalValue (first.takeWhile isDigit)) := by
  simp only [read_int, read_int_loop_eq, List.nil_append, if_neg h, lexical_cast_uint_eq _ hv]

theorem read_int_false_iff (first : Iter) (res : Nat) :
    (∃ it r, read_int first res = Run.ret (false, it, r)) ↔ first.takeWhile isDigit = [] := by
  constructor
  · rintro ⟨it, r, h⟩
    by_contra hne
    simp only [read_int, read_int_loop_eq, List.nil_append, if_neg hne] at h
    cases hl : lexical_cast_uint (first.takeWhile isDigit) with
    | none => simp [hl] at h
    | some v => simp [hl] at h
  · intro h
    exact ⟨first, res, read_int_of_no_digit first res h⟩

/-- C27: `read_int` returns `false` exactly when the input at the current position is empty or
starts with a character that is not a digit, and then the iterator and the output are as they
were; otherwise the iterator is advanced past the maximal run of digits, to the end of the
input or to the first character that is not a digit, and the output is the decimal value of
the run, when that value fits 32 bits. -/
theorem read_int_spec (first : Iter) (res : Nat) :
    first.takeWhile isDigit ++ first.dropWhile isDigit = first ∧
    (∀ c ∈ first.takeWhile isDigit, isDigit c = true) ∧
    (first.dropWhile isDigit = [] ∨
      ∃ c cs, first.dropWhile isDigit = c :: cs ∧ isDigit c = false) ∧
    (first.takeWhile isDigit = [] ↔
      (first = [] ∨ ∃ c cs, first = c :: cs ∧ isDigit c = false)) ∧
    ((∃ it r, read_int first res = Run.ret (false, it, r)) ↔ first.takeWhile isDigit = []) ∧
    (first.takeWhile isDigit = [] → read_int first res = Run.ret (false, first, res)) ∧
    (first.takeWhile isDigit ≠ [] → decimalValue (first.takeWhile isDigit) < 2 ^ 32 →
      read_int first res
        = Run.ret (true, first.dropWhile isDigit, decimalValue (first.takeWhile isDigit))) := by
  refine ⟨List.takeWhile_append_dropWhile isDigit first, fun c hc => List.mem_takeWhile_imp hc,
    ?_, ?_, read_int_false_iff first res, read_int_of_no_digit first res,
    read_int_of_digits first res⟩
  · cases hd : first.dropWhile isDigit with
    | nil => exact Or.inl rfl
    | cons c cs =>
      refine Or.inr ⟨c, cs, rfl, ?_⟩
      exact dropWhile_head_false isDigit first c cs hd
  · cases first with
    | nil => simp
    | cons c cs =>
      by_cases h : isDigit c = true
      · simp [List.takeWhile_cons, h]
      · simp [List.takeWhile_cons, h]

/-- C27 witness: `123abc` is read as 123 with the iterator left at `abc`, and on `abc`
nothing is read. -/
theorem read_int_spec_witness :
    "123abc".toList.takeWhile isDigit ≠ [] ∧
    decimalValue ("123abc".toList.takeWhile isDigit) < 2 ^ 32 ∧
    read_int "123abc".toList 7
      = Run.ret (true, "123abc".toList.dropWhile isDigit,
          decimalValue ("123abc".toList.takeWhile isDigit)) ∧
    "123abc".toList.dropWhile isDigit = "abc".toList ∧
    decimalValue ("123abc".toList.takeWhile isDigit) = 123 ∧
    "abc".toList.takeWhile isDigit = [] ∧
    read_int "abc".toList 7 = Run.ret (false, "abc".toList, 7) :=
  ⟨by decide, by decide,
    (read_int_spec "123abc".toList 7).2.2.2.2.2.2 (by decide) (by decide),
    by decide, by decide, by decide,
    (read_int_spec "abc".toList 7).2.2.2.2.2.1 (by decide)⟩

/-- C28 witness: on `abc;def$` with separator `;` the text returned is `abc`, the rest is
`;def$`, and the beginning `ab` is not longer than the text returned. -/
theorem read_text_to_spec_witness :
    (∀ c ∈ "abc;def$".toList.take 2, c ≠ ';' ∧ c ≠ '$') ∧
    ("abc;def$".toList.take 2).length ≤ (read_text_to "abc;def$".toList ';' '$').1.length ∧
    read_text_to "abc;def$".toList ';' '$' = ("abc".toList, ";def$".toList) :=
  ⟨by decide, (read_text_to_spec "abc;def$".toList ';' '$').2.2.2 2 (by decide), by decide⟩

/-! ## `parse_it` -/

/-- The main loop of `parse_it` makes no progress on a character that is none of `|`, `(`,
`$`, `C` and `^`: whatever the number of iterations allowed, it does not end. -/
theorem parse_it_loop_stuck {M D : Type} (ops : MolOps M D) (inner n : Nat) (c : Char)
    (rest : Iter) (mol : M) (h1 : c ≠ '|') (h2 : c ≠ '(') (h3 : c ≠ '$') (h4 : c ≠ 'C')
    (h5 : c ≠ '^') :
    parse_it.loop ops inner n (c :: rest) mol = Run.fuel := by
  induction n with
  | zero => rfl
  | succ n ih =>
    simp only [parse_it.loop, if_neg h1, if_neg h2, if_neg h3, if_neg h4, if_neg h5]
    exact ih

/-- C24 fails on the input `|x|`: for every number of iterations allowed, `parse_it` is still
in its main loop at the character `x`, which it never steps over; it does not return. -/
theorem parse_it_no_return {M D : Type} (ops : MolOps M D) (fuel : Nat) (mol : M) :
    parse_it ops fuel "|x|".toList mol = Run.fuel ∧
    ∀ r, parse_it ops fuel "|x|".toList mol ≠ Run.ret r := by
  have h : parse_it ops fuel "|x|".toList mol = Run.fuel := by
    have hl := parse_it_loop_stuck ops fuel fuel 'x' ['|'] mol
      (by decide) (by decide) (by decide) (by decide) (by decide)
    show parse_it ops fuel ['|', 'x', '|'] mol = Run.fuel
    simp only [parse_it, ne_eq, not_true_eq_false, if_false, hl, Run.bind]
  refine ⟨h, ?_⟩
  intro r hr
  rw [h] at hr
  cases hr

/-! ## `parseCXExtensions` -/

/-- C25: when the extension text is empty or does not start with `|`, `parseCXExtensions`
returns with the molecule and the iterator as they were; otherwise it throws
`SmilesParseException` exactly when `parse_it` returns `false`, then leaving the molecule as
`parse_it` left it, without post-processing; and when `parse_it` returns `true` it returns
with the molecule post-processed by `processCXSmilesLabels`. -/
theorem parseCXExtensions_spec {M D : Type} (ops : MolOps M D) (fuel : Nat) (mol : M)
    (extText first : Iter) :
    ((extText = [] ∨ extText.head? ≠ some '|') →
      parseCXExtensions ops fuel mol extText first = CXOutcome.done mol first) ∧
    (extText.head? = some '|' →
      (∀ it m, parse_it ops fuel extText mol = Run.ret (false, it, m) →
        parseCXExtensions ops fuel mol extText first = CXOutcome.SmilesParseException m it) ∧
      ((∃ m it, parseCXExtensions ops fuel mol extText first
          = CXOutcome.SmilesParseException m it) →
        ∃ it m, parse_it ops fuel extText mol = Run.ret (false, it, m)) ∧
      (∀ it m m2, parse_it ops fuel extText mol = Run.ret (true, it, m) →
        processCXSmilesLabels ops m = Run.ret m2 →
        parseCXExtensions ops fuel mol extText first = CXOutcome.done m2 it)) := by
  cases extText with
  | nil =>
    refine ⟨fun _ => rfl, ?_⟩
    intro h
    simp at h
  | cons c cs =>
    by_cases hc : c = '|'
    · subst hc
      refine ⟨?_, ?_⟩
      · intro h
        simp at h
      · intro _
        refine ⟨?_, ?_, ?_⟩
        · intro it m hp
          simp only [parseCXExtensions, ne_eq, not_true_eq_false, if_false, hp, if_true]
        · rintro ⟨m, it, ho⟩
          simp only [parseCXExtensions, ne_eq, not_true_eq_false, if_false] at ho
          cases hp : parse_it ops fuel ('|' :: cs) mol with
          | raise e => simp [hp] at ho
          | undefined => simp [hp] at ho
          | fuel => simp [hp] at ho
          | ret r =>
            obtain ⟨ok, it1, m1⟩ := r
            cases ok with
            | false => exact ⟨it1, m1, rfl⟩
            | true =>
              simp only [hp, Bool.true_eq_false, if_false] at ho
              cases hq : processCXSmilesLabels ops m1 <;> simp [hq] at ho
        · intro it m m2 hp hq
          simp only [parseCXExtensions, ne_eq, not_true_eq_false, if_false, hp,
            Bool.true_eq_false, hq]
    · refine ⟨?_, ?_⟩
      · intro _
        simp only [parseCXExtensions, ne_eq, hc, not_false_eq_true, if_true]
      · intro h
        simp only [List.head?_cons, Option.some.injEq] at h
        exact absurd h hc

/-- C25 witness: `x|$a;b$|` is left alone, `|$a;b` makes `parse_it` return `false` and
`SmilesParseException` is thrown with the two labels set, and on `|$a;b;;Q_e$|rest` the
atom labelled `Q_e` is replaced by a query atom. -/
theorem parseCXExtensions_spec_witness :
    ("x|$a;b$|".toList = [] ∨ "x|$a;b$|".toList.head? ≠ some '|') ∧
    parseCXExtensions sampleOps 20 sampleMol "x|$a;b$|".toList "zz".toList
      = CXOutcome.done sampleMol "zz".toList ∧
    "|$a;b".toList.head? = some '|' ∧
    parse_it sampleOps 20 "|$a;b".toList sampleMol
      = Run.ret (false, [],
          { numAtoms := 8,
            events := [MolEvent.label 0 "a".toList, MolEvent.label 1 "b".toList] }) ∧
    parseCXExtensions sampleOps 20 sampleMol "|$a;b".toList "zz".toList
      = CXOutcome.SmilesParseException
          { numAtoms := 8,
            events := [MolEvent.label 0 "a".toList, MolEvent.label 1 "b".toList] } [] ∧
    parseCXExtensions sampleOps 20 sampleMol "|$a;b;;Q_e$|rest".toList "zz".toList
      = CXOutcome.done
          { numAtoms := 8,
            events := [MolEvent.label 0 "a".toList, MolEvent.label 1 "b".toList,
              MolEvent.label 3 "Q_e".toList,
              MolEvent.query 3 (LabelQuery.atomOr true [6, 1]),
              MolEvent.label 3 "Q_e".toList] } "rest".toList :=
  ⟨by decide,
    (parseCXExtensions_spec sampleOps 20 sampleMol "x|$a;b$|".toList "zz".toList).1 (by decide),
    by decide, by decide,
    ((parseCXExtensions_spec sampleOps 20 sampleMol "|$a;b".toList "zz".toList).2
      (by decide)).1 _ _ (by decide),
    ((parseCXExtensions_spec sampleOps 20 sampleMol "|$a;b;;Q_e$|rest".toList "zz".toList).2
      (by decide)).2.2 "rest".toList
        { numAtoms := 8,
          events := [MolEvent.label 0 "a".toList, MolEvent.label 1 "b".toList,
            MolEvent.label 3 "Q_e".toList] }
        _ (by decide) (by decide)⟩

/-! ## `parse_radicals` -/

theorem Run.bind_eq_ret {α β : Type} (x : Run α) (f : α → Run β) (b : β)
    (h : x.bind f = Run.ret b) : ∃ a, x = Run.ret a ∧ f a = Run.ret b := by
  cases x with
  | ret a => exact ⟨a, rfl, h⟩
  | raise e => cases h
  | undefined => cases h
  | fuel => cases h

theorem Run.bind_eq_undefined {α β : Type} (x : Run α) (f : α → Run β)
    (h : x.bind f = Run.undefined) : x = Run.undefined ∨ ∃ a, x = Run.ret a ∧ f a = Run.undefined := by
  cases x with
  | ret a => exact Or.inr ⟨a, rfl, h⟩
  | raise e => cases h
  | undefined => exact Or.inl rfl
  | fuel => cases h

theorem char_lt_iff (c d : Char) : c < d ↔ c.toNat < d.toNat := by
  rw [Char.lt_def, UInt32.lt_def, BitVec.lt_def]
  rfl

theorem char_le_iff (c d : Char) : c ≤ d ↔ c.toNat ≤ d.toNat := by
  rw [Char.le_def, UInt32.le_def, BitVec.le_def]
  rfl

theorem digit_guard (c : Char) : (decide (c < '0') || decide (c > '9')) = !isDigit c := by
  unfold isDigit
  have h1 : c < '0' ↔ ¬ '0' ≤ c := by rw [char_lt_iff, char_le_iff]; omega
  have h2 : c > '9' ↔ ¬ c ≤ '9' := by rw [gt_iff_lt, char_lt_iff, char_le_iff]; omega
  by_cases a : '0' ≤ c <;> by_cases b : c ≤ '9' <;> simp [h1, h2, a, b]

theorem radical_code_cases (c : Char) (h1 : ¬ c < '1') (h2 : ¬ c > '7') :
    c = '1' ∨ c = '2' ∨ c = '3' ∨ c = '4' ∨ c = '5' ∨ c = '6' ∨ c = '7' := by
  rw [char_lt_iff] at h1
  rw [gt_iff_lt, char_lt_iff] at h2
  have e1 : ('1' : Char).toNat = 49 := rfl
  have e7 : ('7' : Char).toNat = 55 := rfl
  rw [e1] at h1
  rw [e7] at h2
  have hc : c = Char.ofNat c.toNat := (Char.ofNat_toNat c).symm
  generalize c.toNat = n at h1 h2 hc
  subst hc
  have h3 : 49 ≤ n := by omega
  have h4 : n ≤ 55 := by omega
  interval_cases n <;> decide

/-- The guard and the `switch` of `parse_radicals` agree with the table of radical codes. -/
theorem radical_code_some (c : Char) (k : Nat) (h : radicalCount c = some k) :
    (decide (c < '1') || decide (c > '7')) = false ∧ parse_radicals.switch c = some k := by
  have hc : c = '1' ∨ c = '2' ∨ c = '3' ∨ c = '4' ∨ c = '5' ∨ c = '6' ∨ c = '7' := by
    by_contra hn
    simp only [not_or] at hn
    obtain ⟨n1, n2, n3, n4, n5, n6, n7⟩ := hn
    unfold radicalCount at h
    split at h <;> contradiction
  rcases hc with rfl | rfl | rfl | rfl | rfl | rfl | rfl <;>
    exact ⟨by decide, by rw [← h]; decide⟩

theorem radical_code_none (c : Char) (h : radicalCount c = none) :
    (decide (c < '1') || decide (c > '7')) = true := by
  by_contra hn
  have h1 : ¬ c < '1' := by
    intro hlt
    exact hn (by simp [hlt])
  have h2 : ¬ c > '7' := by
    intro hgt
    exact hn (by simp [hgt])
  rcases radical_code_cases c h1 h2 with rfl | rfl | rfl | rfl | rfl | rfl | rfl <;>
    exact absurd h (by decide)

theorem read_int_run (run rest : Iter) (res : Nat) (hr : IsIndexRun run)
    (hrest : rest = [] ∨ ∃ c cs, rest = c :: cs ∧ isDigit c = false) :
    read_int (run ++ rest) res = Run.ret (true, rest, decimalValue run) := by
  obtain ⟨h1, h2, h3⟩ := hr
  have hp : ∀ a ∈ run, isDigit a = true := h2
  have ht0 : rest.takeWhile isDigit = [] := by
    rcases hrest with rfl | ⟨c, cs, rfl, hc⟩
    · rfl
    · simp [List.takeWhile_cons, hc]
  have hd0 : rest.dropWhile isDigit = rest := by
    rcases hrest with rfl | ⟨c, cs, rfl, hc⟩
    · rfl
    · simp [List.dropWhile_cons, hc]
  have ht : (run ++ rest).takeWhile isDigit = run := by
    rw [List.takeWhile_append_of_pos hp, ht0, List.append_nil]
  have hd : (run ++ rest).dropWhile isDigit = rest := by
    rw [List.dropWhile_append_of_pos hp, hd0]
  have := read_int_of_digits (run ++ rest) res (by rw [ht]; exact h1) (by rw [ht]; exact h3)
  rw [ht, hd] at this
  exact this

theorem commaRuns_head (rs : List (List Char)) (rest : Iter) (hrest : StartsOther rest) :
    commaRuns rs rest = [] ∨ ∃ c cs, commaRuns rs rest = c :: cs ∧ isDigit c = false := by
  cases rs with
  | nil =>
    obtain ⟨c, cs, h, hc, _⟩ := hrest
    exact Or.inr ⟨c, cs, h, hc⟩
  | cons r rs => exact Or.inr ⟨',', _, rfl, by decide⟩

/-- The loop of `processRadicalSection` on further indices written out: it sets the radical
count on each of them and stops at the rest of the input. -/
theorem section_loop_runs {M D : Type} (ops : MolOps M D) (k : Nat) (rs : List (List Char))
    (rest : Iter) (hrest : StartsOther rest) (fuel atIdx : Nat) (mol mol' : M)
    (hf : rs.length < fuel) (hr : ∀ r ∈ rs, IsIndexRun r)
    (hset : setRadicals ops k (rs.map decimalValue) mol = some mol') :
    processRadicalSection.loop ops k fuel (commaRuns rs rest) atIdx mol
      = Run.ret (none, rest, mol') := by
  induction rs generalizing fuel atIdx mol with
  | nil =>
    obtain ⟨c, cs, h, _, hc, _⟩ := hrest
    obtain ⟨n, rfl⟩ := Nat.exists_eq_succ_of_ne_zero (Nat.pos_iff_ne_zero.mp hf)
    simp only [List.map_nil, setRadicals, Option.some.injEq] at hset
    subst hset
    subst h
    simp only [commaRuns, processRadicalSection.loop, ne_eq, hc, not_false_eq_true, if_true]
  | cons r rs ih =>
    obtain ⟨n, rfl⟩ := Nat.exists_eq_succ_of_ne_zero (Nat.pos_iff_ne_zero.mp
      (Nat.lt_of_le_of_lt (Nat.zero_le _) hf))
    have hrun := hr r (List.mem_cons_self _ _)
    obtain ⟨hne, hdig, _⟩ := hrun
    obtain ⟨d, r', rfl⟩ := List.exists_cons_of_ne_nil hne
    have hd : isDigit d = true := hdig d (List.mem_cons_self _ _)
    have hread := read_int_run (d :: r') (commaRuns rs rest) atIdx
      (hr _ (List.mem_cons_self _ _)) (commaRuns_head rs rest hrest)
    simp only [List.map_cons, setRadicals] at hset
    cases hs : ops.setNumRadicalElectrons mol (decimalValue (d :: r')) k with
    | none => simp [hs] at hset
    | some mol1 =>
      simp only [hs] at hset
      have hrec := ih n (decimalValue (d :: r')) mol1
        (by simp only [List.length_cons] at hf; omega)
        (fun x hx => hr x (List.mem_cons_of_mem _ hx)) hset
      simp only [commaRuns, processRadicalSection.loop, ne_eq, not_true_eq_false, if_false,
        List.cons_append, digit_guard, hd, Bool.not_true, Bool.false_eq_true]
      rw [← List.cons_append, hread]
      simp only [Run.bind, Bool.true_eq_false, if_false, hs, hrec]

theorem processRadicalSection_runs {M D : Type} (ops : MolOps M D) (k : Nat) (code : Char)
    (r : List Char) (rs : List (List Char)) (rest : Iter) (hrest : StartsOther rest)
    (fuel : Nat) (mol mol' : M) (hf : rs.length < fuel) (hr : ∀ x ∈ r :: rs, IsIndexRun x)
    (hset : setRadicals ops k ((r :: rs).map decimalValue) mol = some mol') :
    processRadicalSection ops fuel (code :: ':' :: (r ++ commaRuns rs rest)) mol k
      = Run.ret (true, rest, mol') := by
  have hread := read_int_run r (commaRuns rs rest) 0 (hr r (List.mem_cons_self _ _))
    (commaRuns_head rs rest hrest)
  simp only [List.map_cons, setRadicals] at hset
  cases hs : ops.setNumRadicalElectrons mol (decimalValue r) k with
  | none => simp [hs] at hset
  | some mol1 =>
    simp only [hs] at hset
    have hloop := section_loop_runs ops k rs rest hrest fuel (decimalValue r) mol1 mol' hf
      (fun x hx => hr x (List.mem_cons_of_mem _ hx)) hset
    obtain ⟨c, cs, hc, _⟩ := hrest
    simp only [processRadicalSection, ne_eq, not_true_eq_false, if_false, hread, Run.bind,
      Bool.true_eq_false, hs, hloop]
    rw [hc]

theorem read_int_ne_undefined (first : Iter) (res : Nat) :
    read_int first res ≠ Run.undefined := by
  unfold read_int
  simp only
  split
  · intro h; cases h
  · split <;> (intro h; cases h)

/-- When the loop of `processRadicalSection` makes the function return `true`, the iterator
is inside the input; and the loop never reads `*first` at `last`. -/
theorem section_loop_safe {M D : Type} (ops : MolOps M D) (k fuel : Nat) (first : Iter)
    (atIdx : Nat) (mol : M) :
    processRadicalSection.loop ops k fuel first atIdx mol ≠ Run.undefined ∧
    ∀ f m, processRadicalSection.loop ops k fuel first atIdx mol = Run.ret (some true, f, m) →
      f ≠ [] := by
  induction fuel generalizing first atIdx mol with
  | zero =>
    refine ⟨fun h => (by cases h), fun f m h => (by cases h)⟩
  | succ n ih =>
    cases first with
    | nil =>
      refine ⟨fun h => (by cases h), fun f m h => ?_⟩
      simp [processRadicalSection.loop] at h
    | cons c cs =>
      by_cases hc : c = ','
      · subst hc
        have key : ∀ (x : Run (Bool × Iter × Nat)), x ≠ Run.undefined →
            (x.bind fun r =>
              if r.1 = false then Run.ret (some false, r.2.1, mol)
              else
                match ops.setNumRadicalElectrons mol r.2.2 k with
                | none => Run.raise LibExc.molecule
                | some mol1 => processRadicalSection.loop ops k n r.2.1 r.2.2 mol1)
              ≠ Run.undefined ∧
            ∀ f m, (x.bind fun r =>
              if r.1 = false then Run.ret (some false, r.2.1, mol)
              else
                match ops.setNumRadicalElectrons mol r.2.2 k with
                | none => Run.raise LibExc.molecule
                | some mol1 => processRadicalSection.loop ops k n r.2.1 r.2.2 mol1)
              = Run.ret (some true, f, m) → f ≠ [] := by
          intro x hx
          cases x with
          | raise e => exact ⟨fun h => (by cases h), fun f m h => (by cases h)⟩
          | undefined => exact absurd rfl hx
          | fuel => exact ⟨fun h => (by cases h), fun f m h => (by cases h)⟩
          | ret r =>
            simp only [Run.bind]
            by_cases hr : r.1 = false
            · simp only [hr, if_true]
              exact ⟨fun h => (by cases h), fun f m h => (by cases h)⟩
            · simp only [hr, if_false]
              cases hs : ops.setNumRadicalElectrons mol r.2.2 k with
              | none => exact ⟨fun h => (by cases h), fun f m h => (by cases h)⟩
              | some mol1 => exact ih r.2.1 r.2.2 mol1
        cases cs with
        | nil =>
          simp only [processRadicalSection.loop, ne_eq, not_true_eq_false, if_false]
          exact key _ (read_int_ne_undefined _ _)
        | cons c1 cs1 =>
          simp only [processRadicalSection.loop, ne_eq, not_true_eq_false, if_false]
          by_cases hg : (decide (c1 < '0') || decide (c1 > '9')) = true
          · simp only [hg, if_true]
            refine ⟨fun h => (by cases h), fun f m h => ?_⟩
            simp only [Run.ret.injEq, Prod.mk.injEq] at h
            rw [← h.2.1]
            exact List.cons_ne_nil _ _
          · simp only [hg, if_false]
            exact key _ (read_int_ne_undefined _ _)
      · refine ⟨fun h => ?_, fun f m h => ?_⟩
        · simp [processRadicalSection.loop, hc] at h
        · simp [processRadicalSection.loop, hc] at h

/-- When `processRadicalSection` returns `true` the iterator is inside the input, and it
never reads `*first` at `last`. -/
theorem processRadicalSection_safe {M D : Type} (ops : MolOps M D) (fuel : Nat) (first : Iter)
    (mol : M) (k : Nat) :
    processRadicalSection ops fuel first mol k ≠ Run.undefined ∧
    ∀ f m, processRadicalSection ops fuel first mol k = Run.ret (true, f, m) → f ≠ [] := by
  unfold processRadicalSection
  cases first with
  | nil => exact ⟨fun h => (by cases h), fun f m h => (by cases h)⟩
  | cons c0 f1 =>
    cases f1 with
    | nil => exact ⟨fun h => (by cases h), fun f m h => (by cases h)⟩
    | cons c f2 =>
      by_cases hc : c = ':'
      · subst hc
        simp only [ne_eq, not_true_eq_false, if_false]
        cases hread : read_int f2 0 with
        | raise e => exact ⟨fun h => (by cases h), fun f m h => (by cases h)⟩
        | undefined => exact absurd hread (read_int_ne_undefined _ _)
        | fuel => exact ⟨fun h => (by cases h), fun f m h => (by cases h)⟩
        | ret r =>
          simp only [Run.bind]
          by_cases hr : r.1 = false
          · simp only [hr, if_true]
            exact ⟨fun h => (by cases h), fun f m h => (by cases h)⟩
          · simp only [hr, if_false]
            cases hs : ops.setNumRadicalElectrons mol r.2.2 k with
            | none => exact ⟨fun h => (by cases h), fun f m h => (by cases h)⟩
            | some mol1 =>
              simp only
              obtain ⟨hu, ht⟩ := section_loop_safe ops k fuel r.2.1 r.2.2 mol1
              cases hl : processRadicalSection.loop ops k fuel r.2.1 r.2.2 mol1 with
              | raise e => exact ⟨fun h => (by cases h), fun f m h => (by cases h)⟩
              | undefined => exact absurd hl hu
              | fuel => exact ⟨fun h => (by cases h), fun f m h => (by cases h)⟩
              | ret l =>
                obtain ⟨flag, lf, lm⟩ := l
                simp only [Run.bind]
                cases flag with
                | some b =>
                  refine ⟨fun h => ?_, fun f m h => ?_⟩
                  · simp at h
                  · simp only [Bool.true_eq_false, if_false, Run.ret.injEq, Prod.mk.injEq] at h
                    obtain ⟨hb, hf, _⟩ := h
                    subst hb
                    rw [← hf]
                    exact ht lf lm hl
                | none =>
                  cases lf with
                  | nil => exact ⟨fun h => (by cases h), fun f m h => (by cases h)⟩
                  | cons x xs =>
                    refine ⟨fun h => ?_, fun f m h => ?_⟩
                    · simp at h
                    · simp only [Bool.true_eq_false, if_false, Run.ret.injEq,
                        Prod.mk.injEq] at h
                      rw [← h.2.1]
                      exact List.cons_ne_nil _ _
      · simp only [ne_eq, hc, not_false_eq_true, if_true]
        exact ⟨fun h => (by cases h), fun f m h => (by cases h)⟩

/-- The loop `while (*first == '^')` entered inside the input never reads `*first` at
`last`. -/
theorem parse_radicals_loop_safe {M D : Type} (ops : MolOps M D) (inner n : Nat) (first : Iter)
    (mol : M) (h : first ≠ []) :
    parse_radicals.loop ops inner n first mol ≠ Run.undefined := by
  induction n generalizing first mol with
  | zero => intro hu; cases hu
  | succ n ih =>
    obtain ⟨c, cs, rfl⟩ := List.exists_cons_of_ne_nil h
    by_cases hc : c = '^'
    · subst hc
      cases cs with
      | nil => intro hu; cases hu
      | cons d ds =>
        simp only [parse_radicals.loop, ne_eq, not_true_eq_false, if_false]
        by_cases hg : (decide (d < '1') || decide (d > '7')) = true
        · simp only [hg, if_true]
          intro hu; cases hu
        · simp only [hg, if_false]
          cases hsw : parse_radicals.switch d with
          | none => exact ih (d :: ds) mol (List.cons_ne_nil _ _)
          | some k =>
            simp only
            obtain ⟨hu, ht⟩ := processRadicalSection_safe ops inner (d :: ds) mol k
            cases hp : processRadicalSection ops inner (d :: ds) mol k with
            | raise e => intro hx; cases hx
            | undefined => exact absurd hp hu
            | fuel => intro hx; cases hx
            | ret r =>
              obtain ⟨ok, f, m⟩ := r
              simp only [Run.bind]
              cases ok with
              | false => intro hx; cases hx
              | true =>
                simp only [Bool.true_eq_false, if_false]
                exact ih f m (ht f m hp)
    · simp only [parse_radicals.loop, ne_eq, hc, not_false_eq_true, if_true]
      intro hu; cases hu

/-- C26: `parse_radicals` on `^`, a radical code, `:`, and atom indices separated by commas
sets 1 radical electron for the code `1`, 2 for `2`, `3`, `4` and 3 for `5`, `6`, `7` on every
index listed, and returns `true` at the rest of the input; after `^`, the end of the input
or any character that is not one of these codes makes it return `false`; and its loop never
reads `*first` outside the input. -/
theorem parse_radicals_spec {M D : Type} (ops : MolOps M D) (code : Char) (k : Nat)
    (r : List Char) (rs : List (List Char)) (rest : Iter) (mol mol' : M) (fuel : Nat)
    (hk : radicalCount code = some k) (hr : ∀ x ∈ r :: rs, IsIndexRun x)
    (hrest : StartsOther rest)
    (hset : setRadicals ops k ((r :: rs).map decimalValue) mol = some mol')
    (hf : rs.length + 1 < fuel) :
    parse_radicals ops fuel ('^' :: code :: ':' :: (r ++ commaRuns rs rest)) mol
      = Run.ret (true, rest, mol') ∧
    (∀ (n : Nat) (first : Iter) (m : M),
      (first = [] ∨ ∃ c cs, first = c :: cs ∧ radicalCount c = none) →
      parse_radicals ops (n + 1) ('^' :: first) m = Run.ret (false, first, m)) ∧
    (∀ (n : Nat) (first : Iter) (m : M), parse_radicals ops n first m ≠ Run.undefined) := by
  refine ⟨?_, ?_, ?_⟩
  · obtain ⟨hg, hsw⟩ := radical_code_some code k hk
    have hsec := processRadicalSection_runs ops k code r rs rest hrest fuel mol mol'
      (by omega) hr hset
    obtain ⟨n, rfl⟩ : ∃ n, fuel = n + 2 := ⟨fuel - 2, by omega⟩
    obtain ⟨c, cs, hc, _, _, hcaret⟩ := hrest
    simp only [parse_radicals, parse_radicals.loop, ne_eq, not_true_eq_false, if_false, hg,
      Bool.false_eq_true, hsw, hsec, Run.bind, Bool.true_eq_false]
    rw [hc]
    simp only [hcaret, not_false_eq_true, if_true]
  · intro n first m hfirst
    rcases hfirst with rfl | ⟨c, cs, rfl, hc⟩
    · simp only [parse_radicals, parse_radicals.loop, ne_eq, not_true_eq_false, if_false]
    · simp only [parse_radicals, parse_radicals.loop, ne_eq, not_true_eq_false, if_false,
        radical_code_none c hc, if_true]
  · intro n first m
    unfold parse_radicals
    cases first with
    | nil => intro h; cases h
    | cons c cs =>
      by_cases hc : c = '^'
      · simp only [ne_eq, hc, not_true_eq_false, if_false]
        exact parse_radicals_loop_safe ops n n _ m (List.cons_ne_nil _ _)
      · simp only [ne_eq, hc, not_false_eq_true, if_true]
        intro h; cases h

/-- C26 witness: `^4:0,3,5|` sets 2 radical electrons on the atoms 0, 3 and 5 of the sample
molecule and stops at `|`; `^8:0|` and `^` alone are refused. -/
theorem parse_radicals_spec_witness :
    radicalCount '4' = some 2 ∧
    (∀ x ∈ ["0".toList, "3".toList, "5".toList], IsIndexRun x) ∧
    StartsOther "|".toList ∧
    parse_radicals sampleOps 4 "^4:0,3,5|".toList sampleMol
      = Run.ret (true, "|".toList,
          { numAtoms := 8,
            events := [MolEvent.radical 0 2, MolEvent.radical 3 2, MolEvent.radical 5 2] }) ∧
    parse_radicals sampleOps 1 "^8:0|".toList sampleMol
      = Run.ret (false, "8:0|".toList, sampleMol) ∧
    parse_radicals sampleOps 1 "^".toList sampleMol = Run.ret (false, [], sampleMol) :=
  have hruns : ∀ x ∈ ["0".toList, "3".toList, "5".toList], IsIndexRun x := by
    intro x hx
    simp only [List.mem_cons, List.mem_singleton, List.not_mem_nil, or_false] at hx
    rcases hx with rfl | rfl | rfl <;> exact ⟨by decide, by decide, by decide⟩
  have hother : StartsOther "|".toList := ⟨'|', [], rfl, by decide, by decide, by decide⟩
  ⟨by decide, hruns, hother,
    (parse_radicals_spec sampleOps '4' 2 "0".toList ["3".toList, "5".toList] "|".toList
      sampleMol
      { numAtoms := 8,
        events := [MolEvent.radical 0 2, MolEvent.radical 3 2, MolEvent.radical 5 2] }
      4 (by decide) hruns hother (by decide) (by decide)).1,
    (parse_radicals_spec sampleOps '4' 2 "0".toList ["3".toList, "5".toList] "|".toList
      sampleMol
      { numAtoms := 8,
        events := [MolEvent.radical 0 2, MolEvent.radical 3 2, MolEvent.radical 5 2] }
      4 (by decide) hruns hother (by decide) (by decide)).2.1 0 "8:0|".toList
      sampleMol (Or.inr ⟨'8', ":0|".toList, rfl, by decide⟩),
    (parse_radicals_spec sampleOps '4' 2 "0".toList ["3".toList, "5".toList] "|".toList
      sampleMol
      { numAtoms := 8,
        events := [MolEvent.radical 0 2, MolEvent.radical 3 2, MolEvent.radical 5 2] }
      4 (by decide) hruns hother (by decide) (by decide)).2.1 0 [] sampleMol
      (Or.inl rfl)⟩

end SmilesParseOps
